import Mathlib

/-!
# Timekeeping and delay primitives of `cores/arduino/delay.c`

A shallow embedding of the tick counter, the retry-until-stable microsecond
clock `micros`, and the cooperative `delay` loop, with 32-bit unsigned
arithmetic modelled on `Nat` with explicit reduction modulo `2^32`.
-/

namespace Delay

/-! ## 32-bit unsigned arithmetic -/

/-- The modulus of `uint32_t` arithmetic. -/
def U32 : Nat := 4294967296

/-- Addition of two `uint32_t` values. -/
def add32 (a b : Nat) : Nat := (a + b) % U32

/-- Subtraction of two `uint32_t` values (wraps below zero). -/
def sub32 (a b : Nat) : Nat := (a % U32 + U32 - b % U32) % U32

/-- Multiplication of two `uint32_t` values. -/
def mul32 (a b : Nat) : Nat := (a * b) % U32

/-! ## Tick counter -/

/-- Program state: the file-static `_ulTickCount` and the state `ext` owned by
the external hook `tickReset()` (declared in `Reset.h`). -/
structure State (σ : Type) where
  _ulTickCount : Nat
  ext : σ

/-- The function `setMillis`: `_ulTickCount = ms`. -/
def setMillis {σ : Type} (s : State σ) (ms : Nat) : State σ :=
  { s with _ulTickCount := ms % U32 }

/-- The function `millis`: `return _ulTickCount`. -/
def millis {σ : Type} (s : State σ) : Nat := s._ulTickCount

/-- The function `SysTick_DefaultHandler`: `_ulTickCount++; tickReset();`.
The hook `tickReset` is external; it acts on the external state only, the
counter being a file-static variable. -/
def SysTick_DefaultHandler {σ : Type} (tickReset : σ → σ) (s : State σ) : State σ :=
  { _ulTickCount := add32 s._ulTickCount 1, ext := tickReset s.ext }

/-! ## Microsecond clock -/

/-- One pass of the three volatile reads of `micros`: `SysTick->VAL`, the truth
value of `SCB->ICSR & SCB_ICSR_PENDSTSET_Msk`, and `_ulTickCount`. -/
structure Reading where
  ticks : Nat
  pend : Bool
  count : Nat
deriving DecidableEq, Repr

/-- The value of `!!(SCB->ICSR & SCB_ICSR_PENDSTSET_Msk)` stored in `pend`. -/
def pendVal (b : Bool) : Nat := if b then 1 else 0

/-- The acceptance test of the retry loop in the words of the specification:
the pending flag and the tick counter are unchanged between the previous and
the new pass, and the new countdown is not larger than the previous one. -/
def stablePair (prev new : Reading) : Prop :=
  new.pend = prev.pend ∧ new.count = prev.count ∧ new.ticks ≤ prev.ticks

instance (prev new : Reading) : Decidable (stablePair prev new) := by
  unfold stablePair; infer_instance

/-- The `do ... while` loop of `micros`. The stream `hw` gives the successive
passes of the three volatile reads; `n` is the index of the pass held in
`(ticks2, pend2, count2)`, passed as `r2`. The result is the final
`(ticks, pend, count)` and the index of the last pass read. -/
def microsLoop (hw : Nat → Reading) : Nat → Nat → Reading → Option (Reading × Nat)
  | 0, _, _ => none
  | fuel + 1, n, r2 =>
    let r := r2
    let r2 := hw (n + 1)
    if r.pend ≠ r2.pend ∨ r.count ≠ r2.count ∨ r.ticks < r2.ticks then
      microsLoop hw fuel (n + 1) r2
    else
      some (r, n + 1)

/-- The return expression of `micros`:
`((count+pend) * 1000) + (((SysTick->LOAD - ticks)*(1048576/(VARIANT_MCK/1000000)))>>20)`
in `uint32_t` arithmetic. `VARIANT_MCK` is the board's clock macro and `LOAD`
the value of `SysTick->LOAD`. -/
def microsValue (VARIANT_MCK LOAD : Nat) (ticks pend count : Nat) : Nat :=
  add32 (mul32 (add32 count pend) 1000)
    ((mul32 (sub32 LOAD ticks) (1048576 / (VARIANT_MCK / 1000000))) >>> 20)

/-- The value `micros` returns from its final locals. -/
def microsOf (VARIANT_MCK LOAD : Nat) (r : Reading) : Nat :=
  microsValue VARIANT_MCK LOAD r.ticks (pendVal r.pend) r.count

/-- The function `micros` on a stream of read passes. -/
def micros (VARIANT_MCK LOAD : Nat) (hw : Nat → Reading) (fuel : Nat) : Option Nat :=
  (microsLoop hw fuel 0 (hw 0)).map fun p => microsOf VARIANT_MCK LOAD p.1

/-- A stream of read passes whose second pass is torn: the countdown has been
reloaded and the tick counter has moved between passes 0 and 1. -/
def tornStream (n : Nat) : Reading :=
  if n = 0 then ⟨10, false, 5⟩ else if n = 1 then ⟨47990, false, 6⟩ else ⟨47980, false, 6⟩

/-- A stream of read passes with a countdown that falls from 100 to 50 between
passes 0 and 1, the pending flag and the tick counter being stable. -/
def fallingStream (n : Nat) : Reading :=
  if n = 0 then ⟨100, false, 5⟩ else ⟨50, false, 5⟩

/-! ## Simulated hardware -/

/-- The hardware seen by `micros`: the countdown register `SysTick->VAL`, the
SysTick pending bit of `SCB->ICSR`, and the tick counter `_ulTickCount`. -/
structure Hw where
  VAL : Nat
  pending : Bool
  tick : Nat
deriving DecidableEq, Repr

/-- One step of the hardware: the countdown decreases; or it reloads from zero
and latches the pending bit; or the pending interrupt is serviced, which clears
the bit and runs `SysTick_DefaultHandler` (`_ulTickCount++`). -/
def HwStep (LOAD : Nat) (s s' : Hw) : Prop :=
  (s'.VAL ≤ s.VAL ∧ s'.pending = s.pending ∧ s'.tick = s.tick) ∨
  (s.VAL = 0 ∧ s' = ⟨LOAD, true, s.tick⟩) ∨
  (s.pending = true ∧ s' = ⟨s.VAL, false, add32 s.tick 1⟩)

instance (LOAD : Nat) (s s' : Hw) : Decidable (HwStep LOAD s s') := by
  unfold HwStep; infer_instance

/-- The `k`-th pass of reads taken from the hardware trace `hw`, the three reads
being made at the instants `τ (3k)`, `τ (3k+1)`, `τ (3k+2)`. -/
def sample (hw : Nat → Hw) (τ : Nat → Nat) (k : Nat) : Reading :=
  ⟨(hw (τ (3 * k))).VAL, (hw (τ (3 * k + 1))).pending, (hw (τ (3 * k + 2))).tick⟩

/-- The stream of passes seen by a call of `micros` whose first pass is pass `i`
of the trace. -/
def passesFrom (hw : Nat → Hw) (τ : Nat → Nat) (i : Nat) : Nat → Reading :=
  fun k => sample hw τ (i + k)

/-- The time a hardware state stands for, in hardware ticks: the periods begun
(`tick` plus a pending one) times the period length `LOAD + 1`, plus the
position `LOAD - VAL` inside the current period. -/
def elapsed (LOAD : Nat) (s : Hw) : Nat :=
  (s.tick + pendVal s.pending) * (LOAD + 1) + (LOAD - s.VAL)

/-- The time the final locals of `micros` stand for, in hardware ticks. -/
def elapsedOf (LOAD : Nat) (r : Reading) : Nat :=
  (r.count + pendVal r.pend) * (LOAD + 1) + (LOAD - r.ticks)

/-- A hardware trace given by a finite list of states, constant afterwards. -/
def traceOf (l : List Hw) (d : Hw) (t : Nat) : Hw := l.getD t d

/-- A trace crossing the wrap of the microsecond value: countdown to zero,
reload, service, with the tick counter going from 4294967 to 4294968. -/
def wrapTrace : Nat → Hw :=
  traceOf [⟨47999, false, 4294967⟩, ⟨0, false, 4294967⟩, ⟨47999, true, 4294967⟩]
    ⟨47999, false, 4294968⟩

/-- Read instants for `wrapTrace`: passes 0 and 1 at instant 0, the later ones
at instant 3. -/
def wrapTimes (k : Nat) : Nat := if k < 6 then 0 else 3

/-- A trace in which the tick handler runs after a pending flag has been latched
and the countdown reloads once more afterwards. -/
def preemptTrace : Nat → Hw :=
  traceOf [⟨10, true, 5⟩, ⟨10, false, 6⟩, ⟨1, false, 6⟩, ⟨0, false, 6⟩] ⟨47999, true, 6⟩

/-- Read instants for `preemptTrace`: the countdown and the pending flag of pass 0
are read at instant 0, its tick counter at instant 1 (after the handler), the
countdown of pass 1 at instant 2, everything later at instant 4. -/
def preemptTimes (k : Nat) : Nat :=
  if k < 2 then 0 else if k = 2 then 1 else if k = 3 then 2 else 4

/-- A trace in which the countdown reloads while a tick is still pending, so that
one tick is lost. -/
def lostTickTrace : Nat → Hw :=
  traceOf [⟨10, true, 5⟩, ⟨0, true, 5⟩] ⟨47999, true, 5⟩

/-- Read instants for `lostTickTrace`: passes 0 and 1 at instant 0, the later
ones at instant 2. -/
def lostTickTimes (k : Nat) : Nat := if k < 6 then 0 else 2

/-- A trace with one reload that is serviced before the next one. -/
def servicedTrace : Nat → Hw :=
  traceOf [⟨10, false, 5⟩, ⟨0, false, 5⟩, ⟨47999, true, 5⟩, ⟨47999, false, 6⟩]
    ⟨47000, false, 6⟩

/-- Read instants for `servicedTrace`: passes 0 and 1 at instant 0; pass 2 reads
the countdown and the pending flag at instant 2 and the tick counter at instant
3; the later passes are read at instant 4. -/
def servicedTimes (k : Nat) : Nat :=
  if k < 6 then 0 else if k < 8 then 2 else if k = 8 then 3 else 4

/-- The clock of a simulated run: 700 microseconds between successive calls of
`micros()`, starting at 4000000000. -/
def clock700 (k : Nat) : Nat := 4000000000 + 700 * k

/-! ## Cooperative delay -/

/-- The locals of `delay` with two counters: `reads` is the number of calls of
`micros()` made so far, `yields` the number of calls of `yield()`. -/
structure DelayState where
  ms : Nat
  start : Nat
  reads : Nat
  yields : Nat
deriving DecidableEq, Repr

/-- The inner loop `while (ms > 0 && (micros() - start) >= 1000) { ms--; start += 1000; }`
on `(ms, start, reads)`; `clk k` is the value of the `k`-th call of `micros()`.
When `ms` is 0 the clock is not read. -/
def delayInner (clk : Nat → Nat) : Nat → Nat → Nat → Nat × Nat × Nat
  | 0, start, reads => (0, start, reads)
  | ms + 1, start, reads =>
    if sub32 (clk reads) start ≥ 1000 then
      delayInner clk ms (add32 start 1000) (reads + 1)
    else
      (ms + 1, start, reads + 1)

/-- The outer loop `while (ms > 0) { yield(); <inner loop> }`. -/
def delayOuter (clk : Nat → Nat) : Nat → DelayState → Option DelayState
  | 0, s => if s.ms > 0 then none else some s
  | fuel + 1, s =>
    if s.ms > 0 then
      let r := delayInner clk s.ms s.start s.reads
      delayOuter clk fuel ⟨r.1, r.2.1, r.2.2, s.yields + 1⟩
    else
      some s

/-- The function `delay`. For `ms == 0` it returns before `start` is
initialised; the result then carries `start = 0` and both counters at 0. -/
def delay (clk : Nat → Nat) (fuel : Nat) (ms : Nat) : Option DelayState :=
  if ms = 0 then
    some ⟨0, 0, 0, 0⟩
  else
    delayOuter clk fuel ⟨ms, clk 0, 1, 0⟩

/-- A clock that wraps: 400 microseconds between successive calls of `micros()`,
starting 296 microseconds before the 32-bit overflow. -/
def wrapClock (k : Nat) : Nat := (4294967000 + 400 * k) % U32

/-- True times of the readings of a simulated run that crosses the 32-bit
overflow of the microsecond clock: 700 microseconds apart from 4294967000. -/
def trueTime700 (k : Nat) : Nat := 4294967000 + 700 * k

/-- The inner loop of `delay` on true times, without 32-bit reduction: `S` is the
true time the start marker stands for, `T k` the true time of the `k`-th call
of `micros()`. -/
def innerEnd (T : Nat → Nat) : Nat → Nat → Nat → Nat × Nat × Nat
  | 0, S, reads => (0, S, reads)
  | ms + 1, S, reads =>
    if S + 1000 ≤ T reads then
      innerEnd T ms (S + 1000) (reads + 1)
    else
      (ms + 1, S, reads + 1)

/-- Every reading taken by one run of the inner loop is taken less than `2^32`
microseconds after the true time `S` of the current start marker. -/
def innerWindow (T : Nat → Nat) : Nat → Nat → Nat → Bool
  | 0, _, _ => true
  | ms + 1, S, reads =>
    decide (T reads < S + U32) &&
      (if S + 1000 ≤ T reads then innerWindow T ms (S + 1000) (reads + 1) else true)

/-- Every reading taken during the first `fuel` iterations of the outer loop is
taken less than `2^32` microseconds after the true time of the current start
marker. -/
def outerWindow (T : Nat → Nat) : Nat → Nat → Nat → Nat → Bool
  | 0, _, _, _ => true
  | fuel + 1, ms, S, reads =>
    if ms > 0 then
      innerWindow T ms S reads &&
        outerWindow T fuel (innerEnd T ms S reads).1 (innerEnd T ms S reads).2.1
          (innerEnd T ms S reads).2.2
    else
      true

/-! ## Cycle-exact delay (SAMD51) -/

/-- The target `count = us * (VARIANT_MCK / 1000000) - 20` of `delayMicroseconds`,
in `uint32_t` arithmetic. -/
def cycleTarget (VARIANT_MCK us : Nat) : Nat :=
  sub32 (mul32 us (VARIANT_MCK / 1000000)) 20

/-- The loop `while (1) { elapsed = DWT->CYCCNT - start; if (elapsed >= count) return; }`.
The stream `cyc` gives the successive reads of `DWT->CYCCNT`, `n` is the index
of the next read; the result is the number of reads made in all. -/
def spinLoop (cyc : Nat → Nat) (start count : Nat) : Nat → Nat → Option Nat
  | 0, _ => none
  | fuel + 1, n =>
    let elapsed := sub32 (cyc n) start
    if elapsed ≥ count then
      some (n + 1)
    else
      spinLoop cyc start count fuel (n + 1)

/-- The function `delayMicroseconds`; the result is the number of reads of
`DWT->CYCCNT` it has made. -/
def delayMicroseconds (VARIANT_MCK : Nat) (cyc : Nat → Nat) (fuel us : Nat) : Option Nat :=
  if us = 0 then
    some 0
  else
    let count := cycleTarget VARIANT_MCK us
    let start := cyc 0
    spinLoop cyc start count fuel 1

/-- Reads of the cycle counter that wrap past `2^32`: 200 cycles apart from
4294967000. -/
def wrapCycles (k : Nat) : Nat := (4294967000 + 200 * k) % U32

/-! ## Properties -/

/-- The tick counter after `N` runs of the tick handler. -/
theorem millis_iterate {σ : Type} (tickReset : σ → σ) (N : Nat) (s : State σ) :
    millis ((SysTick_DefaultHandler tickReset)^[N] s) = (millis s + N) % U32 ∨
      (N = 0 ∧ millis ((SysTick_DefaultHandler tickReset)^[N] s) = millis s) := by
  induction N generalizing s with
  | zero => right; simp
  | succ k ih =>
    left
    rw [Function.iterate_succ_apply]
    rcases ih (SysTick_DefaultHandler tickReset s) with h | ⟨_, h⟩
    · rw [h]; simp only [millis, SysTick_DefaultHandler, add32, U32]; omega
    · rw [h]; simp only [millis, SysTick_DefaultHandler, add32, U32]; omega

/-- C1: from any 32-bit counter value `v`, after `N` runs of
`SysTick_DefaultHandler` (no `setMillis` in between) `millis` returns
`(v + N) mod 2^32`, and one run of the handler changes the counter of any state
by exactly `+1` modulo `2^32`. -/
theorem C1_millis_after_ticks {σ : Type} (tickReset : σ → σ) (v N : Nat) (e : σ)
    (s : State σ) (hv : v < U32) :
    millis ((SysTick_DefaultHandler tickReset)^[N] ⟨v, e⟩) = (v + N) % U32 ∧
      millis (SysTick_DefaultHandler tickReset s) = (millis s + 1) % U32 := by
  refine ⟨?_, rfl⟩
  rcases millis_iterate tickReset N ⟨v, e⟩ with h | ⟨h0, h⟩
  · exact h
  · subst h0
    rw [h]
    simp only [millis, U32] at hv ⊢
    omega

/-- Witness of C1: the counter `2^32 - 1` after two ticks reads 1. -/
theorem C1_millis_after_ticks_witness :
    4294967295 < U32 ∧
      (millis ((SysTick_DefaultHandler (fun u : Unit => u))^[2] ⟨4294967295, ()⟩)
          = (4294967295 + 2) % U32 ∧
        millis (SysTick_DefaultHandler (fun u : Unit => u) ⟨7, ()⟩)
          = (millis (⟨7, ()⟩ : State Unit) + 1) % U32) :=
  ⟨by decide, C1_millis_after_ticks (fun u : Unit => u) 4294967295 2 () ⟨7, ()⟩ (by decide)⟩

/-! ### The retry loop -/

/-- The loop test of `micros` fails exactly on a stable pair. -/
theorem loopTest_iff (r r2 : Reading) :
    ¬ (r.pend ≠ r2.pend ∨ r.count ≠ r2.count ∨ r.ticks < r2.ticks) ↔ stablePair r r2 := by
  unfold stablePair
  constructor
  · intro h
    push_neg at h
    exact ⟨h.1.symm, h.2.1.symm, h.2.2⟩
  · rintro ⟨h1, h2, h3⟩
    push_neg
    exact ⟨h1.symm, h2.symm, h3⟩

/-- If the first stable pair from index `n` on is `(k, k+1)`, the loop started at
`n` returns on it as soon as the fuel exceeds `k - n`. -/
theorem microsLoop_first (hw : Nat → Reading) (k : Nat) :
    ∀ (fuel n : Nat), n ≤ k → k - n < fuel →
      (∀ j, n ≤ j → j < k → ¬ stablePair (hw j) (hw (j + 1))) →
      stablePair (hw k) (hw (k + 1)) →
      microsLoop hw fuel n (hw n) = some (hw k, k + 1) := by
  intro fuel
  induction fuel with
  | zero => intro n _ h; omega
  | succ f ih =>
    intro n hn hf hno hk
    rw [microsLoop]
    by_cases hnk : n = k
    · subst hnk
      rw [if_neg ((loopTest_iff _ _).2 hk)]
    · have hlt : n < k := by omega
      have := hno n (Nat.le_refl n) hlt
      rw [if_pos (by rw [← loopTest_iff] at this; exact not_not.mp this)]
      exact ih (n + 1) (by omega) (by omega) (fun j hj hjk => hno j (by omega) hjk) hk

/-- While no pair below the fuel horizon is stable the loop keeps re-reading. -/
theorem microsLoop_none (hw : Nat → Reading) :
    ∀ (fuel n : Nat) (r : Reading), r = hw n →
      (∀ j, n ≤ j → j < n + fuel → ¬ stablePair (hw j) (hw (j + 1))) →
      microsLoop hw fuel n r = none := by
  intro fuel
  induction fuel with
  | zero => intro n r _ _; rfl
  | succ f ih =>
    intro n r hr hno
    subst hr
    rw [microsLoop]
    have := hno n (Nat.le_refl n) (by omega)
    rw [if_pos (by rw [← loopTest_iff] at this; exact not_not.mp this)]
    exact ih (n + 1) _ rfl (fun j hj hjk => hno j (by omega) (by omega))

/-- Whatever the loop returns is the first stable pair. -/
theorem microsLoop_sound (hw : Nat → Reading) :
    ∀ (fuel n : Nat) (r res : Reading) (m : Nat), r = hw n →
      microsLoop hw fuel n r = some (res, m) →
      n < m ∧ m ≤ n + fuel ∧ res = hw (m - 1) ∧ stablePair (hw (m - 1)) (hw m) ∧
        ∀ j, n ≤ j → j + 1 < m → ¬ stablePair (hw j) (hw (j + 1)) := by
  intro fuel
  induction fuel with
  | zero => intro n r res m _ h; simp [microsLoop] at h
  | succ f ih =>
    intro n r res m hr h
    subst hr
    rw [microsLoop] at h
    split at h
    · rename_i hc
      obtain ⟨h1, h2, h3, h4, h5⟩ := ih (n + 1) _ res m rfl h
      refine ⟨by omega, by omega, h3, h4, ?_⟩
      intro j hj hjm
      by_cases hjn : j = n
      · subst hjn
        rw [← loopTest_iff]
        exact not_not.mpr hc
      · exact h5 j (by omega) hjm
    · rename_i hc
      simp only [Option.some.injEq, Prod.mk.injEq] at h
      obtain ⟨h1, h2⟩ := h
      subst h2
      refine ⟨by omega, by omega, ?_, ?_, ?_⟩
      · simpa using h1.symm
      · simpa using (loopTest_iff _ _).1 hc
      · intro j hj hjm; omega

/-- C3: on every stream of read passes `micros` keeps re-reading until the first
pair of consecutive passes with equal pending flag, equal tick counter and a new
countdown not larger than the previous one: if `(k, k+1)` is the first such pair
the loop returns on it, after `k + 1` iterations, once the fuel exceeds `k`, and
with less fuel it is still re-reading; if the hardware does not change between
passes `k` and `k+1` that pair is accepted (for `k = 0`: one iteration). -/
theorem C3_micros_returns_on_first_stable_pair (hw : Nat → Reading) (k fuel : Nat)
    (hno : ∀ j, j < k → ¬ stablePair (hw j) (hw (j + 1))) :
    (stablePair (hw k) (hw (k + 1)) → k < fuel →
        microsLoop hw fuel 0 (hw 0) = some (hw k, k + 1)) ∧
      (fuel ≤ k → microsLoop hw fuel 0 (hw 0) = none) ∧
      (hw (k + 1) = hw k → k < fuel →
        microsLoop hw fuel 0 (hw 0) = some (hw k, k + 1)) := by
  refine ⟨?_, ?_, ?_⟩
  · intro hk hf
    exact microsLoop_first hw k fuel 0 (Nat.zero_le k) (by omega)
      (fun j _ hj => hno j hj) hk
  · intro hf
    exact microsLoop_none hw fuel 0 (hw 0) rfl (fun j _ hj => hno j (by omega))
  · intro he hf
    refine microsLoop_first hw k fuel 0 (Nat.zero_le k) (by omega)
      (fun j _ hj => hno j hj) ?_
    rw [he]
    exact ⟨rfl, rfl, Nat.le_refl _⟩

/-- Witness of C3: on the torn stream the pair `(0, 1)` is rejected and the loop
returns on the pair `(1, 2)` after two iterations. -/
theorem C3_micros_returns_on_first_stable_pair_witness :
    microsLoop tornStream 2 0 (tornStream 0) = some (tornStream 1, 2) :=
  (C3_micros_returns_on_first_stable_pair tornStream 1 2 (by decide)).1
    (by decide) (by decide)

/-- C4 as stated fails: on the falling stream the pair `(0, 1)` is accepted and
`micros` returns 5997, the value for the countdown 100 of the previous pass,
not 5998, the value for the countdown 50 of the accepted new pass. -/
theorem C4_counterexample :
    stablePair (fallingStream 0) (fallingStream 1) ∧
      micros 48000000 47999 fallingStream 1 = some 5997 ∧
      microsOf 48000000 47999 (fallingStream 1) = 5998 ∧
      micros 48000000 47999 fallingStream 1
        ≠ some (microsOf 48000000 47999 (fallingStream 1)) := by
  decide

/-- C4 amended: when `micros` returns, it has accepted the first stable pair
`(k, k+1)` and the value is computed from the tick counter and the pending flag
of the accepted new pass (equal to those of the previous pass) and from the
countdown of the previous pass `k` of that pair. -/
theorem C4_micros_value_of_accepted_pair (VARIANT_MCK LOAD : Nat) (hw : Nat → Reading)
    (fuel v : Nat) (h : micros VARIANT_MCK LOAD hw fuel = some v) :
    ∃ k, k < fuel ∧ stablePair (hw k) (hw (k + 1)) ∧
      (∀ j, j < k → ¬ stablePair (hw j) (hw (j + 1))) ∧
      v = microsValue VARIANT_MCK LOAD (hw k).ticks
            (pendVal (hw (k + 1)).pend) (hw (k + 1)).count := by
  unfold micros at h
  cases hl : microsLoop hw fuel 0 (hw 0) with
  | none => rw [hl] at h; simp at h
  | some p =>
    obtain ⟨res, m⟩ := p
    rw [hl] at h
    simp only [Option.map_some', Option.some.injEq] at h
    obtain ⟨h1, h2, h3, h4, h5⟩ := microsLoop_sound hw fuel 0 (hw 0) res m rfl hl
    obtain ⟨k, rfl⟩ : ∃ k, m = k + 1 := ⟨m - 1, by omega⟩
    simp only [Nat.add_sub_cancel] at h3 h4
    refine ⟨k, by omega, h4, fun j hj => h5 j (Nat.zero_le j) (by omega), ?_⟩
    rw [← h, h3, microsOf, h4.1, h4.2.1]

/-- Witness of C4 amended: the falling stream, accepted pair `(0, 1)`. -/
theorem C4_micros_value_of_accepted_pair_witness :
    ∃ k, k < 1 ∧ stablePair (fallingStream k) (fallingStream (k + 1)) ∧
      (∀ j, j < k → ¬ stablePair (fallingStream j) (fallingStream (j + 1))) ∧
      5997 = microsValue 48000000 47999 (fallingStream k).ticks
            (pendVal (fallingStream (k + 1)).pend) (fallingStream (k + 1)).count :=
  C4_micros_value_of_accepted_pair 48000000 47999 fallingStream 1 5997 (by decide)

/-! ### The conversion to microseconds -/

/-- C5: with the tick counter reached by `N` tick interrupts from 0, the pending
flag clear and the countdown stable at the reload value, `micros` returns
exactly `(N * 1000) mod 2^32`; with the counter at 100 it returns 100000. -/
theorem C5_micros_at_reload {σ : Type} (tickReset : σ → σ) (e : σ)
    (VARIANT_MCK LOAD N fuel : Nat) :
    micros VARIANT_MCK LOAD
        (fun _ => ⟨LOAD, false, millis ((SysTick_DefaultHandler tickReset)^[N] ⟨0, e⟩)⟩)
        (fuel + 1) = some ((N * 1000) % U32) ∧
      micros 48000000 47999 (fun _ => ⟨47999, false, 100⟩) 1 = some 100000 := by
  refine ⟨?_, by decide⟩
  have hc : millis ((SysTick_DefaultHandler tickReset)^[N] ⟨0, e⟩) = N % U32 := by
    rcases millis_iterate tickReset N ⟨0, e⟩ with h | ⟨h0, h⟩
    · rw [h]; simp [millis]
    · subst h0; rw [h]; simp [millis]
  rw [hc]
  simp only [micros, microsLoop, ne_eq, not_true_eq_false, lt_self_iff_false, or_self,
    if_false, Option.map_some', microsOf, microsValue, pendVal, Bool.false_eq_true,
    add32, mul32, sub32, U32, Option.some.injEq]
  have h0 : (LOAD % 4294967296 + 4294967296 - LOAD % 4294967296) % 4294967296 = 0 := by omega
  rw [h0]
  simp only [Nat.zero_mul, Nat.zero_mod, Nat.zero_shiftRight, Nat.add_zero]
  omega

/-- The multiply-and-shift at 48 MHz against the division by 48. -/
theorem shift_vs_div_48 (x : Nat) (hx : x ≤ 47999) :
    (x * 21845 % 4294967296) >>> 20 ≤ x / 48 ∧ x / 48 ≤ (x * 21845 % 4294967296) >>> 20 + 1 := by
  rw [Nat.shiftRight_eq_div_pow, Nat.mod_eq_of_lt (by omega)]
  norm_num
  generalize hq : x * 21845 / 1048576 = q
  have h1 : q * 1048576 ≤ x * 21845 := by rw [← hq]; exact Nat.div_mul_le_self _ _
  have h2 : x * 21845 < (q + 1) * 1048576 := by omega
  constructor
  · rw [Nat.le_div_iff_mul_le (by norm_num)]; omega
  · have : x / 48 * 48 ≤ x := Nat.div_mul_le_self _ _
    omega

/-- The multiply-and-shift at 120 MHz against the division by 120. -/
theorem shift_vs_div_120 (x : Nat) (hx : x ≤ 119999) :
    (x * 8738 % 4294967296) >>> 20 ≤ x / 120 ∧ x / 120 ≤ (x * 8738 % 4294967296) >>> 20 + 1 := by
  rw [Nat.shiftRight_eq_div_pow, Nat.mod_eq_of_lt (by omega)]
  norm_num
  generalize hq : x * 8738 / 1048576 = q
  have h1 : q * 1048576 ≤ x * 8738 := by rw [← hq]; exact Nat.div_mul_le_self _ _
  have h2 : x * 8738 < (q + 1) * 1048576 := by omega
  constructor
  · rw [Nat.le_div_iff_mul_le (by norm_num)]; omega
  · have : x / 120 * 120 ≤ x := Nat.div_mul_le_self _ _
    omega

/-- C6: for `VARIANT_MCK` 48 MHz and 120 MHz, with `F = VARIANT_MCK/1000000` and
`reload = VARIANT_MCK/1000 - 1`, for every `x ≤ reload` elapsed hardware ticks
the 32-bit multiply-and-shift `(x * (1048576 / F)) >> 20`, which is what
`micros` returns for the countdown `reload - x` with tick counter 0 and no
pending tick, differs from `x / F` by at most one; with tick counter 100 and
the countdown at `reload / 2` the result is 100499, within one of 100500. -/
theorem C6_shift_close_to_division (VARIANT_MCK x : Nat)
    (hm : VARIANT_MCK = 48000000 ∨ VARIANT_MCK = 120000000)
    (hx : x ≤ VARIANT_MCK / 1000 - 1) :
    (mul32 x (1048576 / (VARIANT_MCK / 1000000))) >>> 20 ≤ x / (VARIANT_MCK / 1000000) + 1 ∧
      x / (VARIANT_MCK / 1000000) ≤ (mul32 x (1048576 / (VARIANT_MCK / 1000000))) >>> 20 + 1 ∧
      microsValue VARIANT_MCK (VARIANT_MCK / 1000 - 1) (VARIANT_MCK / 1000 - 1 - x) 0 0
        = (mul32 x (1048576 / (VARIANT_MCK / 1000000))) >>> 20 ∧
      microsValue VARIANT_MCK (VARIANT_MCK / 1000 - 1) ((VARIANT_MCK / 1000 - 1) / 2) 0 100
        = 100499 := by
  rcases hm with rfl | rfl
  · norm_num at hx
    have h := shift_vs_div_48 x hx
    have hs : sub32 47999 (47999 - x) = x := by simp only [sub32, U32]; omega
    refine ⟨?_, ?_, ?_, by decide⟩
    · simp only [mul32, U32]; norm_num; omega
    · simp only [mul32, U32]; norm_num; omega
    · simp only [microsValue]
      norm_num
      rw [hs]
      have hb : (mul32 x 21845) >>> 20 < 4294967296 := by
        simp only [mul32, U32]; omega
      simp only [add32, mul32, U32] at hb ⊢
      norm_num
      omega
  · norm_num at hx
    have h := shift_vs_div_120 x hx
    have hs : sub32 119999 (119999 - x) = x := by simp only [sub32, U32]; omega
    refine ⟨?_, ?_, ?_, by decide⟩
    · simp only [mul32, U32]; norm_num; omega
    · simp only [mul32, U32]; norm_num; omega
    · simp only [microsValue]
      norm_num
      rw [hs]
      have hb : (mul32 x 8738) >>> 20 < 4294967296 := by
        simp only [mul32, U32]; omega
      simp only [add32, mul32, U32] at hb ⊢
      norm_num
      omega

/-- Witness of C6: 24000 elapsed ticks at 48 MHz. -/
theorem C6_shift_close_to_division_witness :
    (mul32 24000 (1048576 / (48000000 / 1000000))) >>> 20 ≤ 24000 / (48000000 / 1000000) + 1 ∧
      24000 / (48000000 / 1000000) ≤ (mul32 24000 (1048576 / (48000000 / 1000000))) >>> 20 + 1 ∧
      microsValue 48000000 (48000000 / 1000 - 1) (48000000 / 1000 - 1 - 24000) 0 0
        = (mul32 24000 (1048576 / (48000000 / 1000000))) >>> 20 ∧
      microsValue 48000000 (48000000 / 1000 - 1) ((48000000 / 1000 - 1) / 2) 0 100
        = 100499 :=
  C6_shift_close_to_division 48000000 24000 (Or.inl rfl) (by decide)

/-- C7: a pending rollover counts as one full elapsed millisecond: for every tick
count `c`, countdown `t` and reload value, the value computed from
`(c, pending, t)` equals the value computed from `(c + 1, not pending, t)`, which
is the value for `(c, not pending, t)` plus 1000 modulo `2^32`; with the tick
counter at 100, pending set and the countdown at the reload value it is 101000. -/
theorem C7_pending_is_one_millisecond (VARIANT_MCK LOAD c t : Nat) :
    microsOf VARIANT_MCK LOAD ⟨t, true, c⟩ = microsOf VARIANT_MCK LOAD ⟨t, false, c + 1⟩ ∧
      microsOf VARIANT_MCK LOAD ⟨t, true, c⟩
        = add32 (microsOf VARIANT_MCK LOAD ⟨t, false, c⟩) 1000 ∧
      microsOf 48000000 47999 ⟨47999, true, 100⟩ = 101000 := by
  refine ⟨?_, ?_, by decide⟩
  · simp only [microsOf, microsValue, pendVal, if_true, Bool.false_eq_true, if_false, add32,
      U32]
  · simp only [microsOf, microsValue, pendVal, if_true, Bool.false_eq_true, if_false]
    generalize (mul32 (sub32 LOAD t) (1048576 / (VARIANT_MCK / 1000000))) >>> 20 = f
    simp only [add32, mul32, U32]
    omega

/-- C8 as stated fails: the tick counts 4294967 and 4294968 are far below the
32-bit overflow of the tick counter, yet the microsecond value wraps between
them, from 4294967000 to 704. -/
theorem C8_counterexample :
    4294967 ≤ 4294968 ∧ 4294968 + pendVal false < U32 ∧
      microsOf 48000000 47999 ⟨47999, false, 4294967⟩ = 4294967000 ∧
      microsOf 48000000 47999 ⟨47999, false, 4294968⟩ = 704 ∧
      ¬ (microsOf 48000000 47999 ⟨47999, false, 4294967⟩
          ≤ microsOf 48000000 47999 ⟨47999, false, 4294968⟩) := by
  decide

/-- C8 amended: for a fixed pending flag and countdown, and tick counts
`c1 ≤ c2` below the 32-bit overflow of the microsecond value itself
(`(c2 + pending) * 1000` plus the fractional term is below `2^32`), the value
computed from `c1` is at most the value computed from `c2`. -/
theorem C8_micros_monotone_in_tick_count (VARIANT_MCK LOAD t c1 c2 : Nat) (p : Bool)
    (hc : c1 ≤ c2)
    (hw : (c2 + pendVal p) * 1000
        + (mul32 (sub32 LOAD t) (1048576 / (VARIANT_MCK / 1000000))) >>> 20 < U32) :
    microsOf VARIANT_MCK LOAD ⟨t, p, c1⟩ ≤ microsOf VARIANT_MCK LOAD ⟨t, p, c2⟩ := by
  simp only [microsOf, microsValue]
  generalize (mul32 (sub32 LOAD t) (1048576 / (VARIANT_MCK / 1000000))) >>> 20 = f at hw ⊢
  generalize pendVal p = q at hw ⊢
  simp only [add32, mul32, U32] at hw ⊢
  have e2 : (c2 + q) % 4294967296 = c2 + q := Nat.mod_eq_of_lt (by omega)
  have e1 : (c1 + q) % 4294967296 = c1 + q := Nat.mod_eq_of_lt (by omega)
  rw [e1, e2, Nat.mod_eq_of_lt (by omega : (c2 + q) * 1000 < 4294967296),
    Nat.mod_eq_of_lt (by omega : (c1 + q) * 1000 < 4294967296),
    Nat.mod_eq_of_lt (by omega : (c2 + q) * 1000 + f < 4294967296),
    Nat.mod_eq_of_lt (by omega : (c1 + q) * 1000 + f < 4294967296)]
  omega

/-- Witness of C8 amended: tick counts 100 and 4294965, countdown at half period. -/
theorem C8_micros_monotone_in_tick_count_witness :
    microsOf 48000000 47999 ⟨23999, true, 100⟩
      ≤ microsOf 48000000 47999 ⟨23999, true, 4294965⟩ :=
  C8_micros_monotone_in_tick_count 48000000 47999 23999 100 4294965 true
    (by decide) (by decide)

/-! ### The cooperative delay -/

/-- The inner loop never lowers the read counter, and raises it when `ms > 0`. -/
theorem delayInner_reads (clk : Nat → Nat) :
    ∀ ms start reads, reads ≤ (delayInner clk ms start reads).2.2 ∧
      (0 < ms → reads < (delayInner clk ms start reads).2.2) := by
  intro ms
  induction ms with
  | zero => intro start reads; simp [delayInner]
  | succ m ih =>
    intro start reads
    rw [delayInner]
    split
    · have := (ih (add32 start 1000) (reads + 1)).1
      constructor <;> intros <;> omega
    · simp

/-- The inner loop keeps the start marker at or below the last reading taken and
keeps `start + 1000 * ms` fixed, on a clock that is non-decreasing and below
`2^32` over the first `R` readings. -/
theorem delayInner_inv (clk : Nat → Nat) (R S : Nat)
    (hmono : ∀ a b, a ≤ b → b < R → clk a ≤ clk b) (hb : ∀ k, k < R → clk k < U32) :
    ∀ ms start reads, (delayInner clk ms start reads).2.2 ≤ R → 1 ≤ reads →
      start ≤ clk (reads - 1) → start + 1000 * ms = S →
      1 ≤ (delayInner clk ms start reads).2.2 ∧
        (delayInner clk ms start reads).2.1
          ≤ clk ((delayInner clk ms start reads).2.2 - 1) ∧
        (delayInner clk ms start reads).2.1 + 1000 * (delayInner clk ms start reads).1 = S ∧
        (0 < (delayInner clk ms start reads).1 →
          clk ((delayInner clk ms start reads).2.2 - 1)
            < (delayInner clk ms start reads).2.1 + 1000) := by
  intro ms
  induction ms with
  | zero => intro start reads _ h1 h2 h3; simpa [delayInner] using ⟨h1, h2, h3⟩
  | succ m ih =>
    intro start reads hR h1 h2 h3
    rw [delayInner] at hR ⊢
    split
    · rename_i hc
      rw [if_pos hc] at hR
      have hlt : reads < R := by
        have := (delayInner_reads clk m (add32 start 1000) (reads + 1)).1
        omega
      have hcb := hb reads hlt
      have hm := hmono (reads - 1) reads (by omega) hlt
      have hge : start + 1000 ≤ clk reads := by
        simp only [sub32, U32] at hc hcb
        omega
      have hadd : add32 start 1000 = start + 1000 := by
        simp only [add32, U32] at hcb ⊢
        omega
      rw [hadd] at hR ⊢
      exact ih (start + 1000) (reads + 1) hR (by omega) (by simpa using hge) (by omega)
    · rename_i hc
      rw [if_neg hc] at hR
      simp only [] at hR
      have hm := hmono (reads - 1) reads (by omega) (by omega)
      have hcb := hb reads (by omega)
      refine ⟨by simp, ?_, h3, fun _ => ?_⟩
      · simpa using Nat.le_trans h2 hm
      · simp only [sub32, U32, Nat.add_sub_cancel] at hc hcb ⊢
        omega

/-- The outer loop never lowers the read counter. -/
theorem delayOuter_reads (clk : Nat → Nat) :
    ∀ fuel s fin, delayOuter clk fuel s = some fin → s.reads ≤ fin.reads := by
  intro fuel
  induction fuel with
  | zero =>
    intro s fin h
    rw [delayOuter] at h
    split at h
    · simp at h
    · simp only [Option.some.injEq] at h; subst h; exact Nat.le_refl _
  | succ f ih =>
    intro s fin h
    rw [delayOuter] at h
    split at h
    · have := ih _ fin h
      have := (delayInner_reads clk s.ms s.start s.reads).1
      simp only [] at *
      omega
    · simp only [Option.some.injEq] at h; subst h; exact Nat.le_refl _

/-- When the outer loop returns, all requested milliseconds are retired, the start
marker has reached `S` and is at or below the last reading taken, and at least
one `yield()` was made if there was anything to wait for. -/
theorem delayOuter_inv (clk : Nat → Nat) (S : Nat) :
    ∀ fuel s fin, delayOuter clk fuel s = some fin →
      (∀ a b, a ≤ b → b < fin.reads → clk a ≤ clk b) →
      (∀ k, k < fin.reads → clk k < U32) →
      1 ≤ s.reads → s.start ≤ clk (s.reads - 1) → s.start + 1000 * s.ms = S →
      fin.ms = 0 ∧ 1 ≤ fin.reads ∧ fin.start ≤ clk (fin.reads - 1) ∧ fin.start = S ∧
        (0 < s.ms → s.yields < fin.yields) := by
  intro fuel
  induction fuel with
  | zero =>
    intro s fin h _ _ h1 h2 h3
    rw [delayOuter] at h
    split at h
    · simp at h
    · rename_i hz
      simp only [Option.some.injEq] at h
      subst h
      have : s.ms = 0 := by omega
      refine ⟨this, h1, h2, ?_, fun hp => by omega⟩
      rw [this] at h3; omega
  | succ f ih =>
    intro s fin h hmono hb h1 h2 h3
    rw [delayOuter] at h
    split at h
    · have hR := delayOuter_reads clk f _ fin h
      simp only [] at hR
      obtain ⟨i1, i2, i3, _⟩ := delayInner_inv clk fin.reads S hmono hb s.ms s.start s.reads
        hR h1 h2 h3
      obtain ⟨j1, j2, j3, j4, j5⟩ := ih _ fin h hmono hb i1 i2 i3
      refine ⟨j1, j2, j3, j4, fun _ => ?_⟩
      by_cases hz : 0 < (delayInner clk s.ms s.start s.reads).1
      · have := j5 hz
        simp only [] at this
        omega
      · have hfin : delayOuter clk f
            ⟨(delayInner clk s.ms s.start s.reads).1, (delayInner clk s.ms s.start s.reads).2.1,
              (delayInner clk s.ms s.start s.reads).2.2, s.yields + 1⟩ = some fin := h
        cases f with
        | zero =>
          rw [delayOuter, if_neg hz] at hfin
          simp only [Option.some.injEq] at hfin
          rw [← hfin]; simp
        | succ g =>
          rw [delayOuter, if_neg hz] at hfin
          simp only [Option.some.injEq] at hfin
          rw [← hfin]; simp
    · rename_i hz
      simp only [Option.some.injEq] at h
      subst h
      have : s.ms = 0 := by omega
      refine ⟨this, h1, h2, ?_, fun hp => by omega⟩
      rw [this] at h3; omega

/-- On a clock that is non-decreasing and does not wrap, the outer loop returns
once the fuel covers the readings up to one that has reached `S`. -/
theorem delayOuter_returns (clk : Nat → Nat) (S K : Nat)
    (hmono : ∀ a b, a ≤ b → clk a ≤ clk b) (hb : ∀ k, clk k < U32) (hK : S ≤ clk K) :
    ∀ fuel s, 1 ≤ s.reads → s.start ≤ clk (s.reads - 1) → s.start + 1000 * s.ms = S →
      (0 < s.ms → clk (s.reads - 1) < s.start + 1000) → K < s.reads + fuel →
      ∃ fin, delayOuter clk fuel s = some fin := by
  intro fuel
  induction fuel with
  | zero =>
    intro s h1 h2 h3 h4 h5
    have hz : ¬ 0 < s.ms := by
      intro hp
      have := h4 hp
      have := hmono K (s.reads - 1) (by omega)
      omega
    exact ⟨s, by rw [delayOuter, if_neg hz]⟩
  | succ f ih =>
    intro s h1 h2 h3 h4 h5
    by_cases hz : 0 < s.ms
    · rw [delayOuter, if_pos hz]
      obtain ⟨i1, i2, i3, i4⟩ := delayInner_inv clk (delayInner clk s.ms s.start s.reads).2.2 S
        (fun a b hab _ => hmono a b hab) (fun k _ => hb k) s.ms s.start s.reads
        (Nat.le_refl _) h1 h2 h3
      have := (delayInner_reads clk s.ms s.start s.reads).2 hz
      exact ih _ i1 i2 i3 i4 (by simp only []; omega)
    · exact ⟨s, by rw [delayOuter, if_neg hz]⟩

/-- On a clock that is non-decreasing and does not wrap, `delay(ms)` returns once
the fuel covers the readings up to one that lies `1000 * ms` after the entry
reading. -/
theorem delay_returns_once_elapsed (clk : Nat → Nat) (ms K : Nat)
    (hmono : ∀ a b, a ≤ b → clk a ≤ clk b) (hb : ∀ k, clk k < U32)
    (hK : clk 0 + 1000 * ms ≤ clk K) :
    ∃ fin, delay clk K ms = some fin := by
  rw [delay]
  split
  · exact ⟨_, rfl⟩
  · exact delayOuter_returns clk (clk 0 + 1000 * ms) K hmono hb hK K ⟨ms, clk 0, 1, 0⟩
      (Nat.le_refl 1) (Nat.le_refl _) rfl (fun _ => by simp) (by simp only []; omega)

/-- C9: for every `ms > 0`, on every clock whose readings during the call are
non-decreasing and do not wrap, when `delay(ms)` returns it has called `yield()`
at least once, all milliseconds are retired, and the last reading `r` of
`micros()` it took satisfies `r - start0 ≥ 1000 * ms`, where `start0` is the
reading taken on entry. -/
theorem C9_delay_waits_long_enough (clk : Nat → Nat) (fuel ms : Nat) (fin : DelayState)
    (hms : 0 < ms) (h : delay clk fuel ms = some fin)
    (hmono : ∀ a b, a ≤ b → b < fin.reads → clk a ≤ clk b)
    (hb : ∀ k, k < fin.reads → clk k < U32) :
    1 ≤ fin.yields ∧ fin.ms = 0 ∧ 1 ≤ fin.reads ∧
      clk 0 + 1000 * ms ≤ clk (fin.reads - 1) ∧
      1000 * ms ≤ sub32 (clk (fin.reads - 1)) (clk 0) := by
  rw [delay, if_neg (by omega)] at h
  obtain ⟨j1, j2, j3, j4, j5⟩ := delayOuter_inv clk (clk 0 + 1000 * ms) fuel _ fin h hmono hb
    (Nat.le_refl 1) (Nat.le_refl _) rfl
  have hy := j5 hms
  simp only [] at hy
  have hlast := hb (fin.reads - 1) (by omega)
  have h0 := hmono 0 (fin.reads - 1) (Nat.zero_le _) (by omega)
  refine ⟨by omega, j1, j2, by omega, ?_⟩
  simp only [sub32, U32] at hlast ⊢
  omega

/-- C10: `delay(0)` returns at once, whatever the clock: for every clock and
every fuel the result exists, and it has made no call of `yield()` and no call
of `micros()`. -/
theorem C10_delay_zero_returns_immediately (clk : Nat → Nat) (fuel : Nat) :
    ∃ s, delay clk fuel 0 = some s ∧ s.yields = 0 ∧ s.reads = 0 :=
  ⟨⟨0, 0, 0, 0⟩, rfl, rfl, rfl⟩

/-- Witness of C9: `delay(5)` on `clock700` returns after 4 calls of `yield()`
and 9 readings, the last one 5600 microseconds after the first. -/
theorem C9_delay_waits_long_enough_witness :
    1 ≤ (4 : Nat) ∧ (0 : Nat) = 0 ∧ 1 ≤ (9 : Nat) ∧
      clock700 0 + 1000 * 5 ≤ clock700 (9 - 1) ∧
      1000 * 5 ≤ sub32 (clock700 (9 - 1)) (clock700 0) :=
  C9_delay_waits_long_enough clock700 4 5 ⟨0, 4000005000, 9, 4⟩ (by decide) (by decide)
    (fun a b h _ => by simp only [clock700]; omega) (by decide)

/-! ### Monotonicity of `micros` on the simulated hardware -/

/-- A list trace is a run of the hardware if its listed steps are. -/
theorem traceOf_valid (LOAD : Nat) (l : List Hw) (d : Hw)
    (h : ∀ t, t < l.length → HwStep LOAD (traceOf l d t) (traceOf l d (t + 1))) :
    ∀ t, HwStep LOAD (traceOf l d t) (traceOf l d (t + 1)) := by
  intro t
  by_cases ht : t < l.length
  · exact h t ht
  · left
    simp only [traceOf]
    rw [List.getD_eq_default _ _ (by omega), List.getD_eq_default _ _ (by omega)]
    exact ⟨Nat.le_refl _, rfl, rfl⟩

/-- The stored pending value is 0 or 1. -/
theorem pendVal_le_one (b : Bool) : pendVal b ≤ 1 := by
  cases b <;> simp [pendVal]

/-- The countdown never exceeds the reload value once it is below it. -/
theorem hw_VAL_le (LOAD : Nat) (hw : Nat → Hw)
    (hstep : ∀ t, HwStep LOAD (hw t) (hw (t + 1))) (hinit : (hw 0).VAL ≤ LOAD) :
    ∀ t, (hw t).VAL ≤ LOAD := by
  intro t
  induction t with
  | zero => exact hinit
  | succ n ih =>
    rcases hstep n with ⟨h1, _, _⟩ | ⟨_, h2⟩ | ⟨_, h2⟩
    · omega
    · rw [h2]
    · rw [h2]; exact ih

/-- One hardware step, taken before the microsecond value wraps and not a reload
over a pending tick, lowers neither the tick counter, nor the number of periods
begun, nor the elapsed time. -/
theorem hwStep_mono (LOAD : Nat) (s s' : Hw) (h : HwStep LOAD s s') (hv : s.VAL ≤ LOAD)
    (hnw : (s.tick + 2) * 1000 ≤ U32) (hs : s.pending = true → s'.VAL ≤ s.VAL) :
    s.tick ≤ s'.tick ∧ s.tick + pendVal s.pending ≤ s'.tick + pendVal s'.pending ∧
      elapsed LOAD s ≤ elapsed LOAD s' := by
  rcases h with ⟨h1, h2, h3⟩ | ⟨h1, h2⟩ | ⟨h1, h2⟩
  · refine ⟨by omega, by rw [h2, h3], ?_⟩
    simp only [elapsed, h2, h3]
    omega
  · cases hp : s.pending with
    | true =>
      have hz := hs hp
      rw [h2] at hz
      simp only [] at hz
      have hL : LOAD = 0 := by omega
      subst hL
      rw [h2]
      simp [elapsed, hp, pendVal]
    | false =>
      rw [h2]
      simp only [elapsed, pendVal, h1, Bool.false_eq_true, if_false, if_true, hp]
      refine ⟨Nat.le_refl _, by omega, ?_⟩
      have e1 : (s.tick + 1) * (LOAD + 1) = s.tick * (LOAD + 1) + (LOAD + 1) := by ring
      rw [Nat.add_zero, e1]
      omega
  · have ha : add32 s.tick 1 = s.tick + 1 := by
      simp only [add32, U32] at hnw ⊢
      omega
    rw [h2, ha]
    simp only [elapsed, pendVal, h1, Bool.false_eq_true, if_false, if_true, Nat.add_zero]
    refine ⟨by omega, by omega, Nat.le_refl _⟩

/-- Along a run, up to an instant `E` before which the microsecond value does not
wrap and no reload overruns a pending tick, the tick counter, the number of
periods begun and the elapsed time are non-decreasing. -/
theorem trace_mono (LOAD : Nat) (hw : Nat → Hw) (E : Nat)
    (hstep : ∀ t, HwStep LOAD (hw t) (hw (t + 1))) (hinit : (hw 0).VAL ≤ LOAD)
    (hnowrap : ∀ t, t ≤ E → ((hw t).tick + 2) * 1000 ≤ U32)
    (hserved : ∀ t, t < E → (hw t).pending = true → (hw (t + 1)).VAL ≤ (hw t).VAL) :
    ∀ a b, a ≤ b → b ≤ E →
      (hw a).tick ≤ (hw b).tick ∧
      (hw a).tick + pendVal (hw a).pending ≤ (hw b).tick + pendVal (hw b).pending ∧
      elapsed LOAD (hw a) ≤ elapsed LOAD (hw b) := by
  intro a b hab
  induction b, hab using Nat.le_induction with
  | base => intro _; exact ⟨Nat.le_refl _, Nat.le_refl _, Nat.le_refl _⟩
  | succ n hn ih =>
    intro hE
    obtain ⟨i1, i2, i3⟩ := ih (by omega)
    obtain ⟨j1, j2, j3⟩ := hwStep_mono LOAD (hw n) (hw (n + 1)) (hstep n)
      (hw_VAL_le LOAD hw hstep hinit n) (hnowrap n (by omega)) (hserved n (by omega))
    exact ⟨Nat.le_trans i1 j1, Nat.le_trans i2 j2, Nat.le_trans i3 j3⟩

/-- The time computed from a pass is not before the instant of its countdown
read. -/
theorem accepted_lower (LOAD : Nat) (hw : Nat → Hw) (τ : Nat → Nat) (E : Nat)
    (hstep : ∀ t, HwStep LOAD (hw t) (hw (t + 1))) (hinit : (hw 0).VAL ≤ LOAD)
    (hnowrap : ∀ t, t ≤ E → ((hw t).tick + 2) * 1000 ≤ U32)
    (hserved : ∀ t, t < E → (hw t).pending = true → (hw (t + 1)).VAL ≤ (hw t).VAL)
    (hτ : Monotone τ) (k : Nat) (hE : τ (3 * k + 2) ≤ E) :
    elapsed LOAD (hw (τ (3 * k))) ≤ elapsedOf LOAD (sample hw τ k) := by
  have m := trace_mono LOAD hw E hstep hinit hnowrap hserved
  have t12 : τ (3 * k + 1) ≤ τ (3 * k + 2) := hτ (by omega)
  obtain ⟨_, a2, _⟩ := m (τ (3 * k)) (τ (3 * k + 1)) (hτ (by omega)) (by omega)
  obtain ⟨b1, _, _⟩ := m (τ (3 * k + 1)) (τ (3 * k + 2)) t12 hE
  simp only [elapsed, elapsedOf, sample]
  exact Nat.add_le_add_right (Nat.mul_le_mul_right _ (by omega)) _

/-- The time computed from the previous pass of an accepted pair is not after the
instant of the countdown read of the new pass, unless the tick handler ran after
a set pending flag was read and the countdown reloaded once more between the
countdown read and the pending read of the new pass. -/
theorem accepted_upper (LOAD : Nat) (hw : Nat → Hw) (τ : Nat → Nat) (E : Nat)
    (hstep : ∀ t, HwStep LOAD (hw t) (hw (t + 1))) (hinit : (hw 0).VAL ≤ LOAD)
    (hnowrap : ∀ t, t ≤ E → ((hw t).tick + 2) * 1000 ≤ U32)
    (hserved : ∀ t, t < E → (hw t).pending = true → (hw (t + 1)).VAL ≤ (hw t).VAL)
    (hτ : Monotone τ) (k : Nat) (hE : τ (3 * k + 5) ≤ E)
    (hst : stablePair (sample hw τ k) (sample hw τ (k + 1)))
    (hpre : ((hw (τ (3 * k + 1))).pending = true →
          (hw (τ (3 * k + 2))).tick = (hw (τ (3 * k + 1))).tick) ∨
        (hw (τ (3 * k + 3))).tick + pendVal (hw (τ (3 * k + 3))).pending
          = (hw (τ (3 * k + 4))).tick + pendVal (hw (τ (3 * k + 4))).pending) :
    elapsedOf LOAD (sample hw τ k) ≤ elapsed LOAD (hw (τ (3 * k + 3))) := by
  have m := trace_mono LOAD hw E hstep hinit hnowrap hserved
  have e3 : 3 * (k + 1) = 3 * k + 3 := by ring
  simp only [stablePair, sample, e3] at hst
  obtain ⟨s1, s2, s3⟩ := hst
  have t45 : τ (3 * k + 4) ≤ τ (3 * k + 5) := hτ (by omega)
  have t34 : τ (3 * k + 3) ≤ τ (3 * k + 4) := hτ (by omega)
  have t23 : τ (3 * k + 2) ≤ τ (3 * k + 3) := hτ (by omega)
  have t24 : τ (3 * k + 2) ≤ τ (3 * k + 4) := hτ (by omega)
  have t13 : τ (3 * k + 1) ≤ τ (3 * k + 3) := hτ (by omega)
  have hn : (hw (τ (3 * k + 2))).tick + pendVal (hw (τ (3 * k + 1))).pending
      ≤ (hw (τ (3 * k + 3))).tick + pendVal (hw (τ (3 * k + 3))).pending := by
    rcases hpre with hp | hp
    · cases hb : (hw (τ (3 * k + 1))).pending with
      | true =>
        rw [hp hb, ← hb]
        exact (m _ _ t13 (by omega)).2.1
      | false =>
        have := (m _ _ t23 (by omega)).2.1
        have e0 : pendVal false = 0 := rfl
        rw [e0]
        omega
    · have c1 := (m _ _ t24 (by omega)).1
      have c2 := (m _ _ t45 hE).1
      rw [hp, s1]
      omega
  simp only [elapsedOf, elapsed, sample]
  exact Nat.add_le_add (Nat.mul_le_mul_right _ hn) (by omega)

/-- Comparing two times `n * (L + 1) + e` with `e ≤ L` compares the pairs
`(n, e)` lexicographically. -/
theorem lex_of_le (L n1 n2 e1 e2 : Nat) (h2 : e2 ≤ L)
    (h : n1 * (L + 1) + e1 ≤ n2 * (L + 1) + e2) : n1 < n2 ∨ (n1 = n2 ∧ e1 ≤ e2) := by
  rcases Nat.lt_trichotomy n1 n2 with hlt | heq | hgt
  · exact Or.inl hlt
  · subst heq; right; exact ⟨rfl, by omega⟩
  · exfalso
    have h3 : (n2 + 1) * (L + 1) ≤ n1 * (L + 1) := Nat.mul_le_mul_right _ hgt
    have e1 : (n2 + 1) * (L + 1) = n2 * (L + 1) + (L + 1) := by ring
    omega

/-- The return expression of `micros` is monotone in the time its locals stand
for, when a full period converts to at most 999 microseconds without 32-bit
overflow and the microsecond value does not wrap. -/
theorem microsOf_le_of_elapsedOf_le (VARIANT_MCK LOAD : Nat) (r1 r2 : Reading)
    (hL : LOAD < U32)
    (hA : LOAD * (1048576 / (VARIANT_MCK / 1000000)) < U32)
    (hB : (LOAD * (1048576 / (VARIANT_MCK / 1000000))) >>> 20 ≤ 999)
    (h1 : r1.ticks ≤ LOAD) (h2 : r2.ticks ≤ LOAD)
    (hnw : (r2.count + pendVal r2.pend) * 1000 + 999 < U32)
    (h : elapsedOf LOAD r1 ≤ elapsedOf LOAD r2) :
    microsOf VARIANT_MCK LOAD r1 ≤ microsOf VARIANT_MCK LOAD r2 := by
  have frac : ∀ t, t ≤ LOAD →
      (mul32 (sub32 LOAD t) (1048576 / (VARIANT_MCK / 1000000))) >>> 20
        = ((LOAD - t) * (1048576 / (VARIANT_MCK / 1000000))) / 1048576 := by
    intro t ht
    have hs : sub32 LOAD t = LOAD - t := by
      simp only [sub32, U32] at hL ⊢
      omega
    have hle : (LOAD - t) * (1048576 / (VARIANT_MCK / 1000000))
        ≤ LOAD * (1048576 / (VARIANT_MCK / 1000000)) :=
      Nat.mul_le_mul_right _ (Nat.sub_le _ _)
    rw [hs, mul32, Nat.mod_eq_of_lt (by omega), Nat.shiftRight_eq_div_pow]
  have fracmono : ∀ a b, a ≤ b →
      (a * (1048576 / (VARIANT_MCK / 1000000))) / 1048576
        ≤ (b * (1048576 / (VARIANT_MCK / 1000000))) / 1048576 :=
    fun a b hab => Nat.div_le_div_right (Nat.mul_le_mul_right _ hab)
  have hB2 : (LOAD * (1048576 / (VARIANT_MCK / 1000000))) / 1048576 ≤ 999 := by
    rw [Nat.shiftRight_eq_div_pow] at hB; exact hB
  have f1 := fracmono (LOAD - r1.ticks) LOAD (Nat.sub_le _ _)
  have f2 := fracmono (LOAD - r2.ticks) LOAD (Nat.sub_le _ _)
  simp only [microsOf, microsValue]
  rw [frac r1.ticks h1, frac r2.ticks h2]
  simp only [elapsedOf] at h
  simp only [add32, mul32, U32] at hnw ⊢
  rcases lex_of_le LOAD _ _ _ _ (Nat.sub_le _ _) h with hlt | ⟨heq, hle⟩
  · generalize (LOAD - r1.ticks) * (1048576 / (VARIANT_MCK / 1000000)) / 1048576 = g1 at f1 ⊢
    generalize (LOAD - r2.ticks) * (1048576 / (VARIANT_MCK / 1000000)) / 1048576 = g2 at f2 ⊢
    generalize r1.count + pendVal r1.pend = n1 at hlt ⊢
    generalize r2.count + pendVal r2.pend = n2 at hlt hnw ⊢
    rw [Nat.mod_eq_of_lt (by omega : n1 < 4294967296),
      Nat.mod_eq_of_lt (by omega : n2 < 4294967296),
      Nat.mod_eq_of_lt (by omega : n1 * 1000 < 4294967296),
      Nat.mod_eq_of_lt (by omega : n2 * 1000 < 4294967296),
      Nat.mod_eq_of_lt (by omega : n1 * 1000 + g1 < 4294967296),
      Nat.mod_eq_of_lt (by omega : n2 * 1000 + g2 < 4294967296)]
    omega
  · have f3 := fracmono _ _ hle
    generalize (LOAD - r1.ticks) * (1048576 / (VARIANT_MCK / 1000000)) / 1048576 = g1 at f1 f3 ⊢
    generalize (LOAD - r2.ticks) * (1048576 / (VARIANT_MCK / 1000000)) / 1048576 = g2 at f2 f3 ⊢
    rw [heq]
    generalize r2.count + pendVal r2.pend = n2 at hnw ⊢
    rw [Nat.mod_eq_of_lt (by omega : n2 < 4294967296),
      Nat.mod_eq_of_lt (by omega : n2 * 1000 < 4294967296),
      Nat.mod_eq_of_lt (by omega : n2 * 1000 + g1 < 4294967296),
      Nat.mod_eq_of_lt (by omega : n2 * 1000 + g2 < 4294967296)]
    omega

/-- One run of the inner loop never raises `ms` and keeps `start + 1000 * ms`
fixed modulo `2^32`, whatever the clock reads. -/
theorem delayInner_marker (clk : Nat → Nat) :
    ∀ ms start reads, (delayInner clk ms start reads).1 ≤ ms ∧
      ((delayInner clk ms start reads).2.1 + 1000 * (delayInner clk ms start reads).1) % U32
        = (start + 1000 * ms) % U32 := by
  intro ms
  induction ms with
  | zero => intro start reads; simp [delayInner]
  | succ m ih =>
    intro start reads
    rw [delayInner]
    split
    · obtain ⟨h1, h2⟩ := ih (add32 start 1000) (reads + 1)
      refine ⟨by omega, ?_⟩
      rw [h2]
      simp only [add32, U32]
      omega
    · exact ⟨Nat.le_refl _, rfl⟩

/-- When the outer loop returns, `ms` is 0 and `start + 1000 * ms` is what it was
modulo `2^32`, whatever the clock reads. -/
theorem delayOuter_marker (clk : Nat → Nat) :
    ∀ fuel s fin, delayOuter clk fuel s = some fin →
      fin.ms = 0 ∧ (fin.start + 1000 * fin.ms) % U32 = (s.start + 1000 * s.ms) % U32 := by
  intro fuel
  induction fuel with
  | zero =>
    intro s fin h
    rw [delayOuter] at h
    split at h
    · simp at h
    · simp only [Option.some.injEq] at h
      subst h
      exact ⟨by omega, rfl⟩
  | succ f ih =>
    intro s fin h
    rw [delayOuter] at h
    split at h
    · obtain ⟨h1, h2⟩ := ih _ fin h
      refine ⟨h1, ?_⟩
      rw [h2]
      exact (delayInner_marker clk s.ms s.start s.reads).2
    · simp only [Option.some.injEq] at h
      subst h
      exact ⟨by omega, rfl⟩

/-- C11: `delay` moves its start marker only by `start += 1000`, once per retired
millisecond, and never sets it from the clock: for every clock, one run of the
inner loop from any state `(m, st, rd)` never raises the remaining count and
keeps `start + 1000 * remaining` fixed modulo `2^32`; so when `delay(ms)`
returns (`ms > 0`), the remaining count is 0, all `ms` decrements have been
made, and `start` is `start0 + 1000 * ms` modulo `2^32`, with `start0` the
reading taken on entry. -/
theorem C11_delay_start_marker (clk : Nat → Nat) (fuel ms m st rd : Nat) (fin : DelayState)
    (hms : 0 < ms) (h : delay clk fuel ms = some fin) :
    (delayInner clk m st rd).1 ≤ m ∧
      ((delayInner clk m st rd).2.1 + 1000 * (delayInner clk m st rd).1) % U32
        = (st + 1000 * m) % U32 ∧
      fin.ms = 0 ∧
      (fin.start + 1000 * fin.ms) % U32 = (clk 0 + 1000 * ms) % U32 ∧
      fin.start % U32 = (clk 0 + 1000 * ms) % U32 := by
  rw [delay, if_neg (by omega)] at h
  obtain ⟨h1, h2⟩ := delayOuter_marker clk fuel _ fin h
  obtain ⟨i1, i2⟩ := delayInner_marker clk m st rd
  refine ⟨i1, i2, h1, h2, ?_⟩
  rw [h1] at h2
  simpa using h2

/-- Witness of C11: `delay(5)` on `clock700`, and the inner loop from the state
reached after the first yield with two milliseconds already elapsed. -/
theorem C11_delay_start_marker_witness :
    (delayInner clock700 5 4000000000 2).1 ≤ 5 ∧
      ((delayInner clock700 5 4000000000 2).2.1
          + 1000 * (delayInner clock700 5 4000000000 2).1) % U32
        = (4000000000 + 1000 * 5) % U32 ∧
      (0 : Nat) = 0 ∧
      (4000005000 + 1000 * 0) % U32 = (clock700 0 + 1000 * 5) % U32 ∧
      4000005000 % U32 = (clock700 0 + 1000 * 5) % U32 :=
  C11_delay_start_marker clock700 4 5 5 4000000000 2 ⟨0, 4000005000, 9, 4⟩
    (by decide) (by decide)

/-! ### The tick counter after `setMillis` -/

/-- C14: `setMillis` overwrites the tick counter whatever it held: for every state
and every 32-bit `v`, `millis` right after `setMillis(v)` returns `v`, and after
`N` further ticks it returns `(v + N) mod 2^32`. -/
theorem C14_setMillis_overwrites {σ : Type} (tickReset : σ → σ) (s : State σ) (v N : Nat)
    (hv : v < U32) :
    millis (setMillis s v) = v ∧
      millis ((SysTick_DefaultHandler tickReset)^[N] (setMillis s v)) = (v + N) % U32 := by
  have h0 : millis (setMillis s v) = v := by
    simp only [millis, setMillis]
    exact Nat.mod_eq_of_lt hv
  refine ⟨h0, ?_⟩
  rcases millis_iterate tickReset N (setMillis s v) with h | ⟨hN, h⟩
  · rw [h, h0]
  · subst hN
    rw [h, h0]
    simp only [U32] at hv ⊢
    omega

/-- Witness of C14: the counter 123 is overwritten with `2^32 - 1`; three ticks
later it reads 2. -/
theorem C14_setMillis_overwrites_witness :
    millis (setMillis (⟨123, ()⟩ : State Unit) 4294967295) = 4294967295 ∧
      millis ((SysTick_DefaultHandler (fun u : Unit => u))^[3]
          (setMillis (⟨123, ()⟩ : State Unit) 4294967295)) = (4294967295 + 3) % U32 :=
  C14_setMillis_overwrites (fun u : Unit => u) ⟨123, ()⟩ 4294967295 3 (by decide)

/-! ### The cycle-exact delay -/

/-- The wrapped difference of two counter values is their true difference when
less than `2^32` lies between them. -/
theorem sub32_true_diff (a b : Nat) (hab : a ≤ b) (hlt : b - a < U32) :
    sub32 (b % U32) (a % U32) = b - a := by
  simp only [sub32, U32] at hlt ⊢
  omega

/-- The wrapped difference never exceeds the true difference. -/
theorem sub32_le_true_diff (a b : Nat) (hab : a ≤ b) :
    sub32 (b % U32) (a % U32) ≤ b - a := by
  simp only [sub32, U32]
  omega

/-- If the first read from index `n` on that reaches the target is read `k`, the
spin loop returns on it once the fuel exceeds `k - n`. -/
theorem spinLoop_first (cyc : Nat → Nat) (start count k : Nat) :
    ∀ (fuel n : Nat), n ≤ k → k - n < fuel →
      (∀ j, n ≤ j → j < k → sub32 (cyc j) start < count) →
      count ≤ sub32 (cyc k) start →
      spinLoop cyc start count fuel n = some (k + 1) := by
  intro fuel
  induction fuel with
  | zero => intro n _ h; omega
  | succ f ih =>
    intro n hn hf hno hk
    rw [spinLoop]
    by_cases hnk : n = k
    · subst hnk
      rw [if_pos hk]
    · have := hno n (Nat.le_refl n) (by omega)
      rw [if_neg (by omega)]
      exact ih (n + 1) (by omega) (by omega) (fun j hj hjk => hno j (by omega) hjk) hk

/-- While no read below the fuel horizon reaches the target the loop keeps
spinning. -/
theorem spinLoop_none (cyc : Nat → Nat) (start count : Nat) :
    ∀ (fuel n : Nat), (∀ j, n ≤ j → j < n + fuel → sub32 (cyc j) start < count) →
      spinLoop cyc start count fuel n = none := by
  intro fuel
  induction fuel with
  | zero => intro n _; rfl
  | succ f ih =>
    intro n hno
    rw [spinLoop]
    have := hno n (Nat.le_refl n) (by omega)
    rw [if_neg (by omega)]
    exact ih (n + 1) (fun j hj hjk => hno j (by omega) (by omega))

/-- Whatever the spin loop returns, its last read has reached the target. -/
theorem spinLoop_sound (cyc : Nat → Nat) (start count : Nat) :
    ∀ (fuel n r : Nat), spinLoop cyc start count fuel n = some r →
      n < r ∧ count ≤ sub32 (cyc (r - 1)) start := by
  intro fuel
  induction fuel with
  | zero => intro n r h; simp [spinLoop] at h
  | succ f ih =>
    intro n r h
    rw [spinLoop] at h
    split at h
    · rename_i hc
      simp only [Option.some.injEq] at h
      subst h
      exact ⟨by omega, by simpa using hc⟩
    · obtain ⟨h1, h2⟩ := ih (n + 1) r h
      exact ⟨by omega, h2⟩

/-- C12: for every `us > 0`, `delayMicroseconds(us)` reads the cycle counter once
as `start` and returns at the first later read `k` whose wrapped difference
`(cyc k - start) mod 2^32` reaches the target `(us * (VARIANT_MCK/1000000) - 20)
mod 2^32`, having made `k + 1` reads in all, and with fuel for fewer than `k`
loop reads it is still spinning; the wrapped difference is the true number of
cycles elapsed whenever fewer than `2^32` cycles lie between the two reads, also
when the counter wraps in between. -/
theorem C12_delayMicroseconds_first_reach (VARIANT_MCK : Nat) (cyc : Nat → Nat)
    (us fuel k a b : Nat) (hus : 0 < us) (hk : 1 ≤ k)
    (hno : ∀ j, 1 ≤ j → j < k → sub32 (cyc j) (cyc 0) < cycleTarget VARIANT_MCK us) :
    (cycleTarget VARIANT_MCK us ≤ sub32 (cyc k) (cyc 0) → k ≤ fuel →
        delayMicroseconds VARIANT_MCK cyc fuel us = some (k + 1)) ∧
      (fuel < k → delayMicroseconds VARIANT_MCK cyc fuel us = none) ∧
      (a ≤ b → b - a < U32 → cyc 0 = a % U32 → cyc k = b % U32 →
        sub32 (cyc k) (cyc 0) = b - a) ∧
      ((cycleTarget VARIANT_MCK us : Nat) : Int)
        = ((us : Int) * ((VARIANT_MCK / 1000000 : Nat) : Int) - 20) % 4294967296 := by
  refine ⟨?_, ?_, ?_, ?_⟩
  · intro hreach hf
    rw [delayMicroseconds, if_neg (by omega)]
    exact spinLoop_first cyc (cyc 0) _ k fuel 1 hk (by omega) hno hreach
  · intro hf
    rw [delayMicroseconds, if_neg (by omega)]
    exact spinLoop_none cyc (cyc 0) _ fuel 1 (fun j hj hjk => hno j hj (by omega))
  · intro hab hlt h0 h1
    rw [h0, h1]
    exact sub32_true_diff a b hab hlt
  · have hc : ((us : Int) * ((VARIANT_MCK / 1000000 : Nat) : Int))
        = ((us * (VARIANT_MCK / 1000000) : Nat) : Int) := by
      rw [Int.natCast_mul]
    rw [hc]
    simp only [cycleTarget, sub32, mul32, U32]
    generalize us * (VARIANT_MCK / 1000000) = p
    omega

/-- Witness of C12: at 120 MHz, `delayMicroseconds(3)` has the target 340; on
`wrapCycles` the counter wraps between the reads 1 and 2, the wrapped
differences are 200 and 400, and the call returns on read 2 after 3 reads. -/
theorem C12_delayMicroseconds_first_reach_witness :
    delayMicroseconds 120000000 wrapCycles 2 3 = some 3 ∧
      sub32 (wrapCycles 2) (wrapCycles 0) = 4294967400 - 4294967000 :=
  ⟨(C12_delayMicroseconds_first_reach 120000000 wrapCycles 3 2 2 4294967000 4294967400
      (by decide) (by decide) (by decide)).1 (by decide) (by decide),
    (C12_delayMicroseconds_first_reach 120000000 wrapCycles 3 2 2 4294967000 4294967400
      (by decide) (by decide) (by decide)).2.2.1 (by decide) (by decide) (by decide)
      (by decide)⟩

/-- C13: `delayMicroseconds(0)` returns at once, whatever the hardware: for every
stream of cycle-counter values and every fuel the result exists and no read of
the cycle counter, hence no loop iteration, has been made. -/
theorem C13_delayMicroseconds_zero (VARIANT_MCK : Nat) (cyc : Nat → Nat) (fuel : Nat) :
    delayMicroseconds VARIANT_MCK cyc fuel 0 = some 0 := rfl

/-- C19: at 120 MHz, for `1 ≤ us ≤ 35791394` the product `us * 120` does not
overflow 32 bits and the 32-bit target is the integer `120 * us - 20`, at least
100; so when `delayMicroseconds(us)` returns after `n` reads, the wrapped
difference of its last read to `start` is at least `120 * us - 20`, and so is
the true number of cycles `b - a` between them for true counts `a ≤ b` behind
these two reads. For `us = 35791395` the product is `2^32 + 104`, it overflows,
and the target is 84, smaller than `120 * us - 20`. -/
theorem C19_cycleTarget_exact_in_range (cyc : Nat → Nat) (us fuel n a b : Nat)
    (h1 : 1 ≤ us) (h2 : us ≤ 35791394) :
    mul32 us (120000000 / 1000000) = us * 120 ∧
      cycleTarget 120000000 us = 120 * us - 20 ∧
      100 ≤ cycleTarget 120000000 us ∧
      (delayMicroseconds 120000000 cyc fuel us = some n →
        120 * us - 20 ≤ sub32 (cyc (n - 1)) (cyc 0) ∧
        (a ≤ b → cyc 0 = a % U32 → cyc (n - 1) = b % U32 → 120 * us - 20 ≤ b - a)) ∧
      35791395 * 120 = U32 + 104 ∧
      cycleTarget 120000000 35791395 = 84 ∧
      cycleTarget 120000000 35791395 < 120 * 35791395 - 20 := by
  have hm : mul32 us (120000000 / 1000000) = us * 120 := by
    simp only [mul32, U32]
    omega
  have ht : cycleTarget 120000000 us = 120 * us - 20 := by
    rw [cycleTarget, hm]
    simp only [sub32, U32]
    omega
  refine ⟨hm, ht, by omega, ?_, by decide, by decide, by decide⟩
  intro hrun
  rw [delayMicroseconds, if_neg (by omega)] at hrun
  obtain ⟨_, hs⟩ := spinLoop_sound cyc (cyc 0) _ fuel 1 n hrun
  rw [ht] at hs
  refine ⟨hs, fun hab h0 hn => ?_⟩
  rw [h0, hn] at hs
  exact Nat.le_trans hs (sub32_le_true_diff a b hab)

/-- Witness of C19: `us = 3` on `wrapCycles`, target 340, return after 3 reads
with 400 cycles elapsed. -/
theorem C19_cycleTarget_exact_in_range_witness :
    mul32 3 (120000000 / 1000000) = 3 * 120 ∧
      cycleTarget 120000000 3 = 120 * 3 - 20 ∧
      100 ≤ cycleTarget 120000000 3 ∧
      (delayMicroseconds 120000000 wrapCycles 2 3 = some 3 →
        120 * 3 - 20 ≤ sub32 (wrapCycles (3 - 1)) (wrapCycles 0) ∧
        (4294967000 ≤ 4294967400 → wrapCycles 0 = 4294967000 % U32 →
          wrapCycles (3 - 1) = 4294967400 % U32 → 120 * 3 - 20 ≤ 4294967400 - 4294967000)) ∧
      35791395 * 120 = U32 + 104 ∧
      cycleTarget 120000000 35791395 = 84 ∧
      cycleTarget 120000000 35791395 < 120 * 35791395 - 20 :=
  C19_cycleTarget_exact_in_range wrapCycles 3 2 3 4294967000 4294967400
    (by decide) (by decide)

/-- C17: for `VARIANT_MCK` 48 MHz and 120 MHz with `reload = VARIANT_MCK/1000 - 1`,
for all countdown values `t ≤ t2 ≤ reload`: the product
`(reload - t) * (1048576 / (VARIANT_MCK/1000000))` does not overflow 32 bits and
its value shifted right by 20 is at most 999; hence, absent the `2^32` wrap
(`(c + 1 + pending) * 1000 + 999 < 2^32`), the result for a fixed tick count
`c` and pending flag is non-increasing in the countdown, and the result for
`c` at any countdown is strictly below the result for `c + 1` at any countdown
`t3`. -/
theorem C17_fraction_stays_in_period (VARIANT_MCK t t2 t3 c : Nat) (p : Bool)
    (hm : VARIANT_MCK = 48000000 ∨ VARIANT_MCK = 120000000)
    (ht : t ≤ t2) (ht2 : t2 ≤ VARIANT_MCK / 1000 - 1) (ht3 : t3 ≤ VARIANT_MCK / 1000 - 1)
    (hnw : (c + 1 + pendVal p) * 1000 + 999 < U32) :
    (VARIANT_MCK / 1000 - 1 - t) * (1048576 / (VARIANT_MCK / 1000000)) < U32 ∧
      (mul32 (sub32 (VARIANT_MCK / 1000 - 1) t) (1048576 / (VARIANT_MCK / 1000000))) >>> 20
        ≤ 999 ∧
      microsOf VARIANT_MCK (VARIANT_MCK / 1000 - 1) ⟨t2, p, c⟩
        ≤ microsOf VARIANT_MCK (VARIANT_MCK / 1000 - 1) ⟨t, p, c⟩ ∧
      microsOf VARIANT_MCK (VARIANT_MCK / 1000 - 1) ⟨t, p, c⟩
        < microsOf VARIANT_MCK (VARIANT_MCK / 1000 - 1) ⟨t3, p, c + 1⟩ := by
  have key : ∀ L K : Nat, L < U32 → L * K < U32 → L * K / 1048576 ≤ 999 →
      t ≤ t2 → t2 ≤ L → t3 ≤ L →
      (L - t) * K < U32 ∧ (mul32 (sub32 L t) K) >>> 20 ≤ 999 ∧
      add32 (mul32 (add32 c (pendVal p)) 1000) ((mul32 (sub32 L t2) K) >>> 20)
        ≤ add32 (mul32 (add32 c (pendVal p)) 1000) ((mul32 (sub32 L t) K) >>> 20) ∧
      add32 (mul32 (add32 c (pendVal p)) 1000) ((mul32 (sub32 L t) K) >>> 20)
        < add32 (mul32 (add32 (c + 1) (pendVal p)) 1000) ((mul32 (sub32 L t3) K) >>> 20) := by
    intro L K hL hLK h999 h12 h2L h3L
    have frac : ∀ x, x ≤ L → (mul32 (sub32 L x) K) >>> 20 = (L - x) * K / 1048576 ∧
        (L - x) * K / 1048576 ≤ 999 ∧ (L - x) * K < U32 := by
      intro x hx
      have hs : sub32 L x = L - x := by
        simp only [sub32, U32] at hL ⊢
        omega
      have hle : (L - x) * K ≤ L * K := Nat.mul_le_mul_right _ (Nat.sub_le _ _)
      have hlt : (L - x) * K < U32 := Nat.lt_of_le_of_lt hle hLK
      refine ⟨?_, Nat.le_trans (Nat.div_le_div_right hle) h999, hlt⟩
      rw [hs, mul32, Nat.mod_eq_of_lt hlt, Nat.shiftRight_eq_div_pow]
    obtain ⟨f1, g1, o1⟩ := frac t (by omega)
    obtain ⟨f2, g2, _⟩ := frac t2 h2L
    obtain ⟨f3, g3, _⟩ := frac t3 h3L
    have hmono : (L - t2) * K / 1048576 ≤ (L - t) * K / 1048576 :=
      Nat.div_le_div_right (Nat.mul_le_mul_right _ (by omega))
    rw [f1, f2, f3]
    refine ⟨o1, g1, ?_, ?_⟩
    · generalize (L - t) * K / 1048576 = a1 at g1 hmono ⊢
      generalize (L - t2) * K / 1048576 = a2 at g2 hmono ⊢
      generalize pendVal p = q at hnw ⊢
      simp only [add32, mul32, U32] at hnw ⊢
      rw [Nat.mod_eq_of_lt (by omega : c + q < 4294967296),
        Nat.mod_eq_of_lt (by omega : (c + q) * 1000 < 4294967296),
        Nat.mod_eq_of_lt (by omega : (c + q) * 1000 + a1 < 4294967296),
        Nat.mod_eq_of_lt (by omega : (c + q) * 1000 + a2 < 4294967296)]
      omega
    · generalize (L - t) * K / 1048576 = a1 at g1 ⊢
      generalize (L - t3) * K / 1048576 = a3 at g3 ⊢
      generalize pendVal p = q at hnw ⊢
      simp only [add32, mul32, U32] at hnw ⊢
      rw [Nat.mod_eq_of_lt (by omega : c + q < 4294967296),
        Nat.mod_eq_of_lt (by omega : c + 1 + q < 4294967296),
        Nat.mod_eq_of_lt (by omega : (c + q) * 1000 < 4294967296),
        Nat.mod_eq_of_lt (by omega : (c + 1 + q) * 1000 < 4294967296),
        Nat.mod_eq_of_lt (by omega : (c + q) * 1000 + a1 < 4294967296),
        Nat.mod_eq_of_lt (by omega : (c + 1 + q) * 1000 + a3 < 4294967296)]
      omega
  simp only [microsOf, microsValue]
  rcases hm with rfl | rfl
  · exact key 47999 21845 (by decide) (by decide) (by decide) ht ht2 ht3
  · exact key 119999 8738 (by decide) (by decide) (by decide) ht ht2 ht3

/-- Witness of C17: 48 MHz, countdowns 0, 23999 and 47999, tick count 100. -/
theorem C17_fraction_stays_in_period_witness :
    (48000000 / 1000 - 1 - 0) * (1048576 / (48000000 / 1000000)) < U32 ∧
      (mul32 (sub32 (48000000 / 1000 - 1) 0) (1048576 / (48000000 / 1000000))) >>> 20
        ≤ 999 ∧
      microsOf 48000000 (48000000 / 1000 - 1) ⟨23999, false, 100⟩
        ≤ microsOf 48000000 (48000000 / 1000 - 1) ⟨0, false, 100⟩ ∧
      microsOf 48000000 (48000000 / 1000 - 1) ⟨0, false, 100⟩
        < microsOf 48000000 (48000000 / 1000 - 1) ⟨47999, false, 100 + 1⟩ :=
  C17_fraction_stays_in_period 48000000 0 23999 47999 100 false (Or.inl rfl)
    (by decide) (by decide) (by decide) (by decide)

/-! ### Catching up and termination of `delay` -/

/-- On a clock that stands at `r = start + q * 1000 + rem` with `rem < 1000`, the
inner loop retires `min q m` milliseconds. -/
theorem delayInner_catch_up (clk : Nat → Nat) (r rem : Nat) (hr : r < U32)
    (hrem : rem < 1000) :
    ∀ m start reads q, (∀ k, reads ≤ k → clk k = r) → r = start + q * 1000 + rem →
      delayInner clk m start reads
        = (m - min q m, start + 1000 * min q m, reads + (if m ≤ q then m else q + 1)) := by
  intro m
  induction m with
  | zero => intro start reads q _ _; simp [delayInner]
  | succ m ih =>
    intro start reads q hconst hdec
    rw [delayInner, hconst reads (Nat.le_refl _)]
    have hsub : sub32 r start = q * 1000 + rem := by
      simp only [sub32, U32] at hr ⊢
      omega
    rw [hsub]
    cases q with
    | zero =>
      rw [if_neg (by omega)]
      simp
    | succ q =>
      rw [if_pos (by omega)]
      have hadd : add32 start 1000 = start + 1000 := by
        simp only [add32, U32] at hr ⊢
        omega
      rw [hadd, ih (start + 1000) (reads + 1) q (fun k hk => hconst k (by omega)) (by omega)]
      have hmin : min (q + 1) (m + 1) = min q m + 1 := by omega
      rw [hmin]
      by_cases hmq : m ≤ q
      · rw [if_pos hmq, if_pos (by omega)]
        refine Prod.ext (by simp) (Prod.ext ?_ ?_)
        · simp only []; omega
        · simp only []; omega
      · rw [if_neg hmq, if_neg (by omega)]
        refine Prod.ext (by simp) (Prod.ext ?_ ?_)
        · simp only []; omega
        · simp only []; omega

/-- C16: in one iteration of the outer loop of `delay`, with `m > 0` milliseconds
remaining and the clock standing, from the first reading after `yield()` on, at
a value `r` with `r - start = q * 1000 + rem`, `rem < 1000`, no wrap: the inner
loop retires exactly `min q m` milliseconds, `start` advancing by
`1000 * min q m`; `yield()` is called once in the iteration; if `q ≥ m` the
delay returns with no further yield, and otherwise the next iteration starts
from `m - q` remaining milliseconds. -/
theorem C16_delay_catches_up (clk : Nat → Nat) (m start reads q rem r y fuel : Nat)
    (hm : 0 < m) (hconst : ∀ k, reads ≤ k → clk k = r) (hr : r < U32)
    (hdec : r = start + q * 1000 + rem) (hrem : rem < 1000) :
    delayInner clk m start reads
        = (m - min q m, start + 1000 * min q m, reads + (if m ≤ q then m else q + 1)) ∧
      (m ≤ q → delayOuter clk (fuel + 1) ⟨m, start, reads, y⟩
        = some ⟨0, start + 1000 * m, reads + m, y + 1⟩) ∧
      (q < m → delayOuter clk (fuel + 1) ⟨m, start, reads, y⟩
        = delayOuter clk fuel ⟨m - q, start + 1000 * q, reads + (q + 1), y + 1⟩) := by
  have hin := delayInner_catch_up clk r rem hr hrem m start reads q hconst hdec
  refine ⟨hin, ?_, ?_⟩
  · intro hmq
    rw [delayOuter, if_pos hm, hin, if_pos hmq, Nat.min_eq_right hmq, Nat.sub_self]
    cases fuel <;> simp [delayOuter]
  · intro hqm
    rw [delayOuter, if_pos hm, hin, if_neg (by omega), Nat.min_eq_left (by omega)]

/-- Witness of C16: the clock stands at 7500 with `start = 5000`, so `q = 2`; with
3 milliseconds remaining two are retired and the loop yields again, with 2
remaining both are retired and the delay returns. -/
theorem C16_delay_catches_up_witness :
    delayInner (fun _ => 7500) 3 5000 4
        = (3 - min 2 3, 5000 + 1000 * min 2 3, 4 + (if 3 ≤ 2 then 3 else 2 + 1)) ∧
      (3 ≤ 2 → delayOuter (fun _ => 7500) (0 + 1) ⟨3, 5000, 4, 1⟩
        = some ⟨0, 5000 + 1000 * 3, 4 + 3, 1 + 1⟩) ∧
      (2 < 3 → delayOuter (fun _ => 7500) (0 + 1) ⟨3, 5000, 4, 1⟩
        = delayOuter (fun _ => 7500) 0 ⟨3 - 2, 5000 + 1000 * 2, 4 + (2 + 1), 1 + 1⟩) :=
  C16_delay_catches_up (fun _ => 7500) 3 5000 4 2 500 7500 1 0 (by decide)
    (fun _ _ => rfl) (by decide) (by decide) (by decide)

/-- The lag of a reading behind the start marker adds up over one clock advance. -/
theorem lag_add (x y st : Nat) (hd : sub32 y st < 1000) (hadv : sub32 x y ≤ 1000) :
    sub32 x st = sub32 y st + sub32 x y := by
  simp only [sub32, U32] at *
  omega

/-- Retiring one millisecond lowers the lag by 1000. -/
theorem lag_retire (x st : Nat) (hc : 1000 ≤ sub32 x st) :
    sub32 x (add32 st 1000) = sub32 x st - 1000 := by
  simp only [sub32, add32, U32] at *
  omega

/-- On a clock that advances by 1 to 1000 microseconds per reading (modulo
`2^32`), one run of the inner loop keeps the lag of the last reading behind the
start marker below 1000, and each reading it takes lowers `1000 * ms - lag` by
at least one. -/
theorem delayInner_progress (clk : Nat → Nat)
    (hadv : ∀ k, 1 ≤ sub32 (clk (k + 1)) (clk k) ∧ sub32 (clk (k + 1)) (clk k) ≤ 1000) :
    ∀ ms start reads, 1 ≤ reads → sub32 (clk (reads - 1)) start < 1000 →
      1 ≤ (delayInner clk ms start reads).2.2 ∧
        sub32 (clk ((delayInner clk ms start reads).2.2 - 1))
          (delayInner clk ms start reads).2.1 < 1000 ∧
        (delayInner clk ms start reads).2.2
            + (1000 * (delayInner clk ms start reads).1
              - sub32 (clk ((delayInner clk ms start reads).2.2 - 1))
                  (delayInner clk ms start reads).2.1)
          ≤ reads + (1000 * ms - sub32 (clk (reads - 1)) start) := by
  intro ms
  induction ms with
  | zero => intro start reads h1 h2; simpa [delayInner] using ⟨h1, h2⟩
  | succ m ih =>
    intro start reads h1 h2
    have hδ := hadv (reads - 1)
    have e1 : reads - 1 + 1 = reads := by omega
    rw [e1] at hδ
    have hsum := lag_add (clk reads) (clk (reads - 1)) start h2 hδ.2
    rw [delayInner]
    split
    · rename_i hc
      have hlag := lag_retire (clk reads) start hc
      obtain ⟨i1, i2, i3⟩ := ih (add32 start 1000) (reads + 1) (by omega)
        (by rw [Nat.add_sub_cancel, hlag]; omega)
      rw [Nat.add_sub_cancel, hlag] at i3
      refine ⟨i1, i2, ?_⟩
      omega
    · rename_i hc
      refine ⟨by simp, ?_, ?_⟩
      · simp only [Nat.add_sub_cancel]; omega
      · simp only [Nat.add_sub_cancel]; omega

/-- On a clock that advances by 1 to 1000 microseconds per reading (modulo
`2^32`), the outer loop returns once the fuel covers `1000 * ms - lag`, and that
quantity bounds the further readings and calls of `yield()`. -/
theorem delayOuter_terminates (clk : Nat → Nat)
    (hadv : ∀ k, 1 ≤ sub32 (clk (k + 1)) (clk k) ∧ sub32 (clk (k + 1)) (clk k) ≤ 1000) :
    ∀ fuel s, 1 ≤ s.reads → sub32 (clk (s.reads - 1)) s.start < 1000 →
      1000 * s.ms - sub32 (clk (s.reads - 1)) s.start ≤ fuel →
      ∃ fin, delayOuter clk fuel s = some fin ∧ fin.ms = 0 ∧
        fin.reads ≤ s.reads + (1000 * s.ms - sub32 (clk (s.reads - 1)) s.start) ∧
        fin.yields ≤ s.yields + (1000 * s.ms - sub32 (clk (s.reads - 1)) s.start) := by
  intro fuel
  induction fuel with
  | zero =>
    intro s h1 h2 h3
    have hz : ¬ 0 < s.ms := by omega
    exact ⟨s, by rw [delayOuter, if_neg hz], by omega, by omega, by omega⟩
  | succ f ih =>
    intro s h1 h2 h3
    by_cases hz : 0 < s.ms
    · rw [delayOuter, if_pos hz]
      obtain ⟨i1, i2, i3⟩ := delayInner_progress clk hadv s.ms s.start s.reads h1 h2
      have hrd := (delayInner_reads clk s.ms s.start s.reads).2 hz
      obtain ⟨fin, j1, j2, j3, j4⟩ := ih
        ⟨(delayInner clk s.ms s.start s.reads).1, (delayInner clk s.ms s.start s.reads).2.1,
          (delayInner clk s.ms s.start s.reads).2.2, s.yields + 1⟩ i1 i2
        (by simp only []; omega)
      refine ⟨fin, j1, j2, ?_, ?_⟩
      · simp only [] at j3; omega
      · simp only [] at j4; omega
    · exact ⟨s, by rw [delayOuter, if_neg hz], by omega, by omega, by omega⟩

/-- C15: `delay` completes on an advancing clock: for every `ms` and every clock
whose successive readings each advance by at least 1 and at most 1000
microseconds modulo `2^32`, `delay(ms)` returns as soon as the fuel covers
`1000 * ms` iterations of the outer loop, with no millisecond left, after at
most `1000 * ms + 1` readings of the clock and at most `1000 * ms` calls of
`yield()`. -/
theorem C15_delay_terminates (clk : Nat → Nat) (ms fuel : Nat)
    (hadv : ∀ k, 1 ≤ sub32 (clk (k + 1)) (clk k) ∧ sub32 (clk (k + 1)) (clk k) ≤ 1000)
    (hfuel : 1000 * ms ≤ fuel) :
    ∃ fin, delay clk fuel ms = some fin ∧ fin.ms = 0 ∧
      fin.reads ≤ 1000 * ms + 1 ∧ fin.yields ≤ 1000 * ms := by
  rw [delay]
  split
  · exact ⟨⟨0, 0, 0, 0⟩, rfl, rfl, by simp, by simp⟩
  · have h0 : sub32 (clk 0) (clk 0) = 0 := by simp only [sub32, U32]; omega
    obtain ⟨fin, j1, j2, j3, j4⟩ := delayOuter_terminates clk hadv fuel ⟨ms, clk 0, 1, 0⟩
      (Nat.le_refl 1) (by simp only [Nat.sub_self, h0]; omega)
      (by simp only [Nat.sub_self, h0]; omega)
    refine ⟨fin, j1, j2, ?_, ?_⟩
    · simp only [Nat.sub_self, h0] at j3; omega
    · simp only [Nat.sub_self, h0] at j4; omega

/-- Witness of C15: `delay(2)` on `wrapClock`, whose readings advance by 400 and
wrap past `2^32` at the first step. -/
theorem C15_delay_terminates_witness :
    ∃ fin, delay wrapClock 2000 2 = some fin ∧ fin.ms = 0 ∧
      fin.reads ≤ 1000 * 2 + 1 ∧ fin.yields ≤ 1000 * 2 :=
  C15_delay_terminates wrapClock 2 2000
    (fun k => by simp only [wrapClock, sub32, U32]; omega) (by decide)

/-! ### `delay` across the wrap of the microsecond clock -/

/-- While every reading lies less than `2^32` microseconds after the true time of
the start marker, one run of the inner loop on the wrapped clock does what the
loop on true times does, and the marker stays at or below the last reading. -/
theorem delayInner_true_time (T : Nat → Nat) (hT : ∀ a b, a ≤ b → T a ≤ T b) :
    ∀ ms S reads, 1 ≤ reads → S ≤ T (reads - 1) → innerWindow T ms S reads = true →
      delayInner (fun k => T k % U32) ms (S % U32) reads
          = ((innerEnd T ms S reads).1, (innerEnd T ms S reads).2.1 % U32,
              (innerEnd T ms S reads).2.2) ∧
        1 ≤ (innerEnd T ms S reads).2.2 ∧
        (innerEnd T ms S reads).2.1 ≤ T ((innerEnd T ms S reads).2.2 - 1) ∧
        (innerEnd T ms S reads).2.1 + 1000 * (innerEnd T ms S reads).1 = S + 1000 * ms := by
  intro ms
  induction ms with
  | zero => intro S reads h1 h2 _; exact ⟨rfl, h1, h2, rfl⟩
  | succ m ih =>
    intro S reads h1 h2 hw
    rw [innerWindow, Bool.and_eq_true, decide_eq_true_eq] at hw
    obtain ⟨hlt, hrec⟩ := hw
    have hle : S ≤ T reads := Nat.le_trans h2 (hT _ _ (by omega))
    have hsub : sub32 (T reads % U32) (S % U32) = T reads - S :=
      sub32_true_diff S (T reads) hle (by omega)
    rw [delayInner, innerEnd, hsub]
    by_cases hc : S + 1000 ≤ T reads
    · rw [if_pos hc] at hrec
      rw [if_pos (by omega), if_pos hc]
      have hadd : add32 (S % U32) 1000 = (S + 1000) % U32 := by
        simp only [add32, U32]
        omega
      rw [hadd]
      obtain ⟨i1, i2, i3, i4⟩ := ih (S + 1000) (reads + 1) (by omega)
        (by simpa using hc) hrec
      exact ⟨i1, i2, i3, by omega⟩
    · rw [if_neg (by omega), if_neg hc]
      exact ⟨rfl, by simp, by simpa using hle, rfl⟩

/-- While every reading lies less than `2^32` microseconds after the true time of
the start marker, the outer loop on the wrapped clock returns only after a
reading whose true time has reached `S + 1000 * ms`. -/
theorem delayOuter_true_time (T : Nat → Nat) (hT : ∀ a b, a ≤ b → T a ≤ T b) :
    ∀ fuel s S fin, s.start = S % U32 → 1 ≤ s.reads → S ≤ T (s.reads - 1) →
      outerWindow T fuel s.ms S s.reads = true →
      delayOuter (fun k => T k % U32) fuel s = some fin →
      fin.ms = 0 ∧ 1 ≤ fin.reads ∧ S + 1000 * s.ms ≤ T (fin.reads - 1) := by
  intro fuel
  induction fuel with
  | zero =>
    intro s S fin _ h1 h2 _ h
    rw [delayOuter] at h
    split at h
    · simp at h
    · simp only [Option.some.injEq] at h
      subst h
      have : s.ms = 0 := by omega
      exact ⟨this, h1, by rw [this]; simpa using h2⟩
  | succ f ih =>
    intro s S fin hs h1 h2 hw h
    rw [delayOuter] at h
    by_cases hz : 0 < s.ms
    · rw [if_pos hz] at h
      rw [outerWindow, if_pos hz, Bool.and_eq_true] at hw
      obtain ⟨hwi, hwo⟩ := hw
      obtain ⟨i1, i2, i3, i4⟩ := delayInner_true_time T hT s.ms S s.reads h1 h2 hwi
      rw [hs, i1] at h
      obtain ⟨j1, j2, j3⟩ := ih _ (innerEnd T s.ms S s.reads).2.1 fin rfl i2 i3 hwo h
      simp only [] at j3
      exact ⟨j1, j2, by omega⟩
    · rw [if_neg hz] at h
      simp only [Option.some.injEq] at h
      subst h
      have : s.ms = 0 := by omega
      exact ⟨this, h1, by rw [this]; simpa using h2⟩

/-- C18: `delay` is safe across the `2^32` wrap of `micros()`: if the true times
`T k` of the readings are non-decreasing, each reading is `T k mod 2^32`, and
every reading is taken less than `2^32` microseconds after the true time
`T 0 + 1000 * retired` of the current start marker, then for every `ms > 0`,
also with `1000 * ms ≥ 2^32`, when `delay(ms)` returns no millisecond is left
and the last reading it took has a true time at least `T 0 + 1000 * ms`. -/
theorem C18_delay_safe_across_wrap (T : Nat → Nat) (fuel ms : Nat) (fin : DelayState)
    (hms : 0 < ms) (hT : ∀ a b, a ≤ b → T a ≤ T b)
    (hwin : outerWindow T fuel ms (T 0) 1 = true)
    (hrun : delay (fun k => T k % U32) fuel ms = some fin) :
    fin.ms = 0 ∧ 1 ≤ fin.reads ∧ T 0 + 1000 * ms ≤ T (fin.reads - 1) := by
  rw [delay, if_neg (by omega)] at hrun
  exact delayOuter_true_time T hT fuel ⟨ms, T 0 % U32, 1, 0⟩ (T 0) fin rfl (Nat.le_refl 1)
    (Nat.le_refl _) hwin hrun

/-- Witness of C18: `delay(5)` entered 296 microseconds before the wrap, readings
700 microseconds apart: it returns after 9 readings, the last one 5600
microseconds after the first, with `start` wrapped to 4704. -/
theorem C18_delay_safe_across_wrap_witness :
    (0 : Nat) = 0 ∧ 1 ≤ (9 : Nat) ∧ trueTime700 0 + 1000 * 5 ≤ trueTime700 (9 - 1) :=
  C18_delay_safe_across_wrap trueTime700 4 5 ⟨0, 4704, 9, 4⟩ (by decide)
    (fun a b h => by simp only [trueTime700]; omega) (by decide) (by decide)

end Delay
